import Mathlib

set_option maxRecDepth 10000

/-!
Verification of the heading-extraction pipeline (`solution_1a.py`).

The development shallowly embeds the program: pure text transformations become
Lean functions on `List Char` / `String`, the per-page data provided by the
external pdf-parsing collaborator becomes a record of that collaborator's
answers (words with geometry, band texts, reconstructed lines), and the
pipeline (`parse_as_report`, `process_pdf`) becomes total Lean functions over
that data.  Font sizes and coordinates are modelled by `ℚ`.
-/

namespace Solution1a

/-- Python whitespace characters (`\s` on ASCII): space, tab, newline,
carriage return, vertical tab, form feed. -/
def isWsB (c : Char) : Bool :=
  c = ' ' || c = '\t' || c = '\n' || c = '\r' || c = Char.ofNat 11 || c = Char.ofNat 12

/-- Emit one maximal run of `n` copies of `c` as the first regex pass leaves
it: a run of three or more identical characters collapses to one occurrence,
except that `.` does not match a newline, so newline runs are kept whole. -/
def emitRun (c : Char) (n : ℕ) : List Char :=
  if c = '\n' then List.replicate n c
  else if 3 ≤ n then [c]
  else List.replicate n c

/-- Scanner for the first pass: `c` is the character of the run being read
and `n` how many copies of it have been consumed so far. -/
def pass1Go (c : Char) (n : ℕ) : List Char → List Char
  | [] => emitRun c n
  | d :: t => if d = c then pass1Go c (n + 1) t else emitRun c n ++ pass1Go d 1 t

/-- First pass of `clean_garbled_text`: `re.sub(r'(.)\1{2,}', r'\1', text)`. -/
def pass1 : List Char → List Char
  | [] => []
  | c :: t => pass1Go c 1 t

/-- Second pass: `re.sub(r'([a-zA-Z])\1\1', r'\1', cleaned)` — a scan that
replaces each occurrence of three identical ASCII letters by one, resuming
after the match. -/
def pass2 : List Char → List Char
  | a :: b :: c :: t =>
    if a.isAlpha ∧ a = b ∧ b = c then a :: pass2 t
    else a :: pass2 (b :: c :: t)
  | l => l

/-- Does the list start with a colon?  (Lookahead used by the colon pass.) -/
def headColon : List Char → Bool
  | [] => false
  | c :: _ => c == ':'

/-- Scanner for the third pass, `re.sub(r'\s*:\s*', ': ', cleaned)`.
`drop = true` while discarding the whitespace that follows a rewritten colon;
`pend` buffers a whitespace run whose fate (kept, or absorbed into a
following colon) is not yet known. -/
def colonGo : Bool → List Char → List Char → List Char
  | _, pend, [] => pend
  | drop, pend, c :: t =>
    if isWsB c then
      if drop then colonGo true [] t
      else colonGo false (pend ++ [c]) t
    else if c = ':' then
      ':' :: ' ' :: colonGo true [] t
    else
      pend ++ c :: colonGo false [] t

/-- Third pass: every colon, together with the contiguous whitespace around
it, is rewritten to `": "`. -/
def colonFix (l : List Char) : List Char :=
  colonGo false [] l

/-- Remove trailing Python-whitespace (the right half of `str.strip()`). -/
def dropRightWs : List Char → List Char
  | [] => []
  | c :: rest =>
    match dropRightWs rest with
    | [] => if isWsB c then [] else [c]
    | r :: rs => c :: r :: rs

/-- `str.strip()`: remove leading and trailing whitespace. -/
def stripL (l : List Char) : List Char :=
  dropRightWs (l.dropWhile isWsB)

/-- `clean_garbled_text` on character lists: repeated-character collapse, the
gentler triple-letter pass, colon spacing normalization, and a final strip. -/
def cleanL (l : List Char) : List Char :=
  stripL (colonFix (pass2 (pass1 l)))

/-- `clean_garbled_text(text)` from the source. -/
def clean_garbled_text (s : String) : String :=
  String.mk (cleanL s.data)

/-- `str.strip()` on strings. -/
def stripStr (s : String) : String :=
  String.mk (stripL s.data)

/-! ### Rewriting equations for the colon pass -/

theorem isWsB_colon : isWsB ':' = false := by decide

theorem dropWhile_head_not (p : Char → Bool) :
    ∀ (l : List Char) (c : Char), (l.dropWhile p).head? = some c → p c = false := by
  intro l
  induction l with
  | nil => intro c h; simp at h
  | cons a t ih =>
    intro c h
    by_cases hp : p a
    · rw [List.dropWhile_cons_of_pos hp] at h
      exact ih c h
    · rw [List.dropWhile_cons_of_neg hp] at h
      simp only [List.head?_cons, Option.some.injEq] at h
      subst h
      exact Bool.of_not_eq_true hp

theorem dropWhile_of_head_not (p : Char → Bool) (l : List Char)
    (h : ∀ c, l.head? = some c → p c = false) : l.dropWhile p = l := by
  cases l with
  | nil => rfl
  | cons a t =>
    have := h a rfl
    simp [List.dropWhile_cons, this]

/-- Buffered whitespace is discarded when the scan reaches a colon. -/
theorem colonGo_pend_colon :
    ∀ (l : List Char), headColon (l.dropWhile isWsB) = true →
      ∀ pend, colonGo false pend l = colonGo false [] l := by
  intro l
  induction l with
  | nil => intro h; simp [headColon] at h
  | cons c t ih =>
    intro h pend
    by_cases hw : isWsB c
    · rw [List.dropWhile_cons_of_pos hw] at h
      simp only [colonGo, hw, if_true, Bool.false_eq_true, if_false, List.nil_append]
      rw [ih h (pend ++ [c]), ih h [c]]
    · rw [List.dropWhile_cons_of_neg hw] at h
      simp only [headColon, beq_iff_eq] at h
      subst h
      simp [colonGo, isWsB_colon]

/-- Buffered whitespace is flushed unchanged when no colon follows it. -/
theorem colonGo_pend_flush :
    ∀ (l : List Char), headColon (l.dropWhile isWsB) = false →
      ∀ pend, colonGo false pend l = pend ++ colonGo false [] l := by
  intro l
  induction l with
  | nil => intro _ pend; simp [colonGo]
  | cons c t ih =>
    intro h pend
    by_cases hw : isWsB c
    · rw [List.dropWhile_cons_of_pos hw] at h
      simp only [colonGo, hw, if_true, Bool.false_eq_true, if_false, List.nil_append]
      rw [ih h (pend ++ [c]), ih h [c], List.append_assoc]
    · rw [List.dropWhile_cons_of_neg hw] at h
      simp only [headColon] at h
      rw [beq_eq_false_iff_ne] at h
      simp [colonGo, hw, h]

/-- Leaving drop-mode is the same as first discarding the whitespace run. -/
theorem colonGo_drop :
    ∀ l : List Char, colonGo true [] l = colonGo false [] (l.dropWhile isWsB) := by
  intro l
  induction l with
  | nil => rfl
  | cons c t ih =>
    by_cases hw : isWsB c
    · rw [List.dropWhile_cons_of_pos hw]
      simpa [colonGo, hw] using ih
    · rw [List.dropWhile_cons_of_neg hw]
      by_cases hc : c = ':' <;> simp [colonGo, hw, hc, isWsB_colon]

theorem colonFix_nil : colonFix [] = [] := rfl

theorem colonFix_colon (t : List Char) :
    colonFix (':' :: t) = ':' :: ' ' :: colonFix (t.dropWhile isWsB) := by
  simp [colonFix, colonGo, isWsB_colon, colonGo_drop]

theorem colonFix_plain {c : Char} (t : List Char) (hw : isWsB c = false) (hc : c ≠ ':') :
    colonFix (c :: t) = c :: colonFix t := by
  simp [colonFix, colonGo, hw, hc]

theorem colonFix_ws_colon {c : Char} (t : List Char) (hw : isWsB c = true)
    (h : headColon (t.dropWhile isWsB) = true) :
    colonFix (c :: t) = colonFix t := by
  simp only [colonFix, colonGo, hw, if_true]
  exact colonGo_pend_colon t h [c]

theorem colonFix_ws_nocolon {c : Char} (t : List Char) (hw : isWsB c = true)
    (h : headColon (t.dropWhile isWsB) = false) :
    colonFix (c :: t) = c :: colonFix t := by
  simp only [colonFix, colonGo, hw, if_true]
  exact colonGo_pend_flush t h [c]

/-! ### Heads and idempotence of the colon pass -/

theorem colonFix_head_colon :
    ∀ l : List Char, headColon (l.dropWhile isWsB) = true →
      (colonFix l).head? = some ':' := by
  intro l
  induction l with
  | nil => intro h; simp [headColon] at h
  | cons c t ih =>
    intro h
    by_cases hw : isWsB c
    · rw [List.dropWhile_cons_of_pos hw] at h
      rw [colonFix_ws_colon t hw h]
      exact ih h
    · rw [List.dropWhile_cons_of_neg hw] at h
      simp only [headColon, beq_iff_eq] at h
      subst h
      rw [colonFix_colon]
      rfl

theorem colonFix_head (l : List Char) {h : Char} (hh : (colonFix l).head? = some h) :
    h = ':' ∨ l.head? = some h := by
  cases l with
  | nil => rw [colonFix_nil] at hh; simp at hh
  | cons c t =>
    by_cases hc : c = ':'
    · subst hc
      rw [colonFix_colon] at hh
      simp only [List.head?_cons, Option.some.injEq] at hh
      exact Or.inl hh.symm
    · by_cases hw : isWsB c
      · cases hcol : headColon (t.dropWhile isWsB) with
        | true =>
          have : headColon ((c :: t).dropWhile isWsB) = true := by
            rwa [List.dropWhile_cons_of_pos hw]
          have h2 := colonFix_head_colon (c :: t) this
          rw [hh] at h2
          simp only [Option.some.injEq] at h2
          exact Or.inl h2
        | false =>
          rw [colonFix_ws_nocolon t hw hcol] at hh
          simp only [List.head?_cons, Option.some.injEq] at hh
          subst hh
          exact Or.inr rfl
      · rw [colonFix_plain t (Bool.of_not_eq_true hw) hc] at hh
        simp only [List.head?_cons, Option.some.injEq] at hh
        subst hh
        exact Or.inr rfl

theorem colonFix_head_not_ws (l : List Char)
    (hl : ∀ c, l.head? = some c → isWsB c = false) :
    ∀ c, (colonFix l).head? = some c → isWsB c = false := by
  intro c hc
  rcases colonFix_head l hc with h | h
  · subst h; exact isWsB_colon
  · exact hl c h

theorem dropWhile_colonFix_dropWhile (l : List Char) :
    (colonFix (l.dropWhile isWsB)).dropWhile isWsB = colonFix (l.dropWhile isWsB) :=
  dropWhile_of_head_not isWsB _
    (colonFix_head_not_ws _ (fun c hc => dropWhile_head_not isWsB l c hc))

/-- The colon pass copies a leading whitespace run that no colon follows. -/
theorem colonFix_ws_run :
    ∀ l : List Char, headColon (l.dropWhile isWsB) = false →
      colonFix l = l.takeWhile isWsB ++ colonFix (l.dropWhile isWsB) := by
  intro l
  induction l with
  | nil => intro _; rfl
  | cons c t ih =>
    intro h
    by_cases hw : isWsB c
    · rw [List.dropWhile_cons_of_pos hw] at h
      rw [colonFix_ws_nocolon t hw h, List.takeWhile_cons_of_pos hw,
        List.dropWhile_cons_of_pos hw, ih h, List.cons_append]
    · rw [List.takeWhile_cons_of_neg hw, List.dropWhile_cons_of_neg hw, List.nil_append]

theorem dropWhile_append_all {p : Char → Bool} :
    ∀ (w y : List Char), (∀ a ∈ w, p a = true) → (w ++ y).dropWhile p = y.dropWhile p := by
  intro w y hw
  induction w with
  | nil => rfl
  | cons a t ih =>
    have ha : p a = true := hw a (List.mem_cons_self a t)
    rw [List.cons_append, List.dropWhile_cons_of_pos ha]
    exact ih (fun b hb => hw b (List.mem_cons_of_mem a hb))

/-- After the colon pass of a string whose leading whitespace is not followed
by a colon, the remaining text still does not lead with a colon. -/
theorem colonFix_no_lead_colon (l : List Char)
    (h : headColon (l.dropWhile isWsB) = false) :
    headColon ((colonFix l).dropWhile isWsB) = false := by
  rw [colonFix_ws_run l h,
    dropWhile_append_all _ _ (fun a ha => List.mem_takeWhile_imp ha),
    dropWhile_colonFix_dropWhile]
  cases hd : l.dropWhile isWsB with
  | nil => rfl
  | cons d u =>
    have hdw : isWsB d = false := dropWhile_head_not isWsB l d (by rw [hd]; rfl)
    have hdc : d ≠ ':' := by
      intro hcontra
      rw [hd, hcontra] at h
      simp [headColon] at h
    rw [colonFix_plain u hdw hdc]
    simp [headColon, hdc]

theorem colonFix_idem_bounded :
    ∀ (n : ℕ) (l : List Char), l.length ≤ n → colonFix (colonFix l) = colonFix l := by
  intro n
  induction n with
  | zero =>
    intro l hl
    rw [List.length_eq_zero.mp (Nat.le_zero.mp hl)]
    rfl
  | succ n ih =>
  intro l hl
  cases l with
  | nil => rw [colonFix_nil, colonFix_nil]
  | cons c t =>
    by_cases hc : c = ':'
    · subst hc
      rw [colonFix_colon]
      have hX := dropWhile_colonFix_dropWhile t
      set X := colonFix (t.dropWhile isWsB) with hXdef
      have hlen : (t.dropWhile isWsB).length ≤ n :=
        le_trans (List.dropWhile_sublist isWsB).length_le (Nat.lt_succ_iff.mp hl)
      rw [colonFix_colon]
      rw [List.dropWhile_cons_of_pos (show isWsB ' ' = true by decide), hX,
        ih _ hlen]
    · by_cases hw : isWsB c
      · cases hcol : headColon (t.dropWhile isWsB) with
        | true =>
          rw [colonFix_ws_colon t hw hcol]
          exact ih t (Nat.lt_succ_iff.mp hl)
        | false =>
          rw [colonFix_ws_nocolon t hw hcol]
          rw [colonFix_ws_nocolon (colonFix t) hw (colonFix_no_lead_colon t hcol)]
          rw [ih t (Nat.lt_succ_iff.mp hl)]
      · rw [colonFix_plain t (Bool.of_not_eq_true hw) hc,
          colonFix_plain (colonFix t) (Bool.of_not_eq_true hw) hc,
          ih t (Nat.lt_succ_iff.mp hl)]

theorem colonFix_idem (l : List Char) : colonFix (colonFix l) = colonFix l :=
  colonFix_idem_bounded l.length l le_rfl

/-! ### Interaction of the colon pass with stripping -/

theorem dropRightWs_cons_nil {c : Char} {rest : List Char} (h : dropRightWs rest = []) :
    dropRightWs (c :: rest) = if isWsB c then [] else [c] := by
  simp only [dropRightWs, h]

theorem dropRightWs_cons_cons {c : Char} {rest r : List Char} {y : Char}
    (h : dropRightWs rest = y :: r) :
    dropRightWs (c :: rest) = c :: y :: r := by
  simp only [dropRightWs, h]

theorem dropRightWs_head {d : Char} (t : List Char) (hd : isWsB d = false) :
    ∃ rs, dropRightWs (d :: t) = d :: rs := by
  cases hr : dropRightWs t with
  | nil => exact ⟨[], by rw [dropRightWs_cons_nil hr, if_neg (by rw [hd]; simp)]⟩
  | cons y r => exact ⟨y :: r, dropRightWs_cons_cons hr⟩

theorem dropRightWs_decomp :
    ∀ l : List Char, ∃ w, l = dropRightWs l ++ w ∧ ∀ a ∈ w, isWsB a = true := by
  intro l
  induction l with
  | nil => exact ⟨[], rfl, by simp⟩
  | cons c rest ih =>
    obtain ⟨w, hw, hall⟩ := ih
    cases hr : dropRightWs rest with
    | nil =>
      rw [hr, List.nil_append] at hw
      by_cases hc : isWsB c
      · refine ⟨c :: w, ?_, ?_⟩
        · rw [dropRightWs_cons_nil hr, if_pos hc, List.nil_append, ← hw]
        · intro a ha
          rcases List.mem_cons.mp ha with h | h
          · rw [h]; exact hc
          · exact hall a h
      · refine ⟨w, ?_, hall⟩
        rw [dropRightWs_cons_nil hr, if_neg hc, List.cons_append, List.nil_append, ← hw]
    | cons y r =>
      rw [hr] at hw
      refine ⟨w, ?_, hall⟩
      rw [dropRightWs_cons_cons hr, List.cons_append, ← hw]

theorem dropRightWs_idem : ∀ l : List Char, dropRightWs (dropRightWs l) = dropRightWs l := by
  intro l
  induction l with
  | nil => rfl
  | cons c rest ih =>
    cases hr : dropRightWs rest with
    | nil =>
      rw [dropRightWs_cons_nil hr]
      by_cases hc : isWsB c
      · rw [if_pos hc]; rfl
      · have h0 : dropRightWs ([] : List Char) = [] := rfl
        rw [if_neg hc, dropRightWs_cons_nil h0, if_neg hc]
    | cons y r =>
      rw [dropRightWs_cons_cons hr]
      rw [hr] at ih
      exact dropRightWs_cons_cons ih

theorem dropRightWs_all_ws :
    ∀ w : List Char, (∀ a ∈ w, isWsB a = true) → dropRightWs w = [] := by
  intro w
  induction w with
  | nil => intro _; rfl
  | cons c t ih =>
    intro h
    have ht := ih (fun a ha => h a (List.mem_cons_of_mem c ha))
    rw [dropRightWs_cons_nil ht, if_pos (h c (List.mem_cons_self c t))]

theorem dropRightWs_append_ws :
    ∀ (l w : List Char), (∀ a ∈ w, isWsB a = true) → dropRightWs (l ++ w) = dropRightWs l := by
  intro l w hall
  induction l with
  | nil => rw [List.nil_append]; exact dropRightWs_all_ws w hall
  | cons c t ih =>
    rw [List.cons_append]
    cases hr : dropRightWs t with
    | nil =>
      rw [hr] at ih
      rw [dropRightWs_cons_nil ih, dropRightWs_cons_nil hr]
    | cons y r =>
      rw [hr] at ih
      rw [dropRightWs_cons_cons ih, dropRightWs_cons_cons hr]

theorem dropWhile_append_left {p : Char → Bool} :
    ∀ (l w : List Char) (x : Char) (xs : List Char), l.dropWhile p = x :: xs →
      (l ++ w).dropWhile p = x :: (xs ++ w) := by
  intro l w x xs h
  induction l with
  | nil => simp at h
  | cons c t ih =>
    by_cases hp : p c
    · rw [List.dropWhile_cons_of_pos hp] at h
      rw [List.cons_append, List.dropWhile_cons_of_pos hp]
      exact ih h
    · rw [List.dropWhile_cons_of_neg hp] at h
      cases h
      rw [List.cons_append, List.dropWhile_cons_of_neg hp]

/-- The whole string is a fixed point of the colon pass, hence so is the
string with its leading whitespace removed. -/
theorem colonFix_fixed_dropWhile :
    ∀ l : List Char, colonFix l = l → colonFix (l.dropWhile isWsB) = l.dropWhile isWsB := by
  intro l
  induction l with
  | nil => intro _; rfl
  | cons c t ih =>
    intro hfix
    by_cases hw : isWsB c
    · cases hcol : headColon (t.dropWhile isWsB) with
      | true =>
        exfalso
        have hhead := colonFix_head_colon (c :: t)
          (by rwa [List.dropWhile_cons_of_pos hw])
        rw [hfix] at hhead
        simp only [List.head?_cons, Option.some.injEq] at hhead
        rw [hhead] at hw
        rw [isWsB_colon] at hw
        exact Bool.false_ne_true hw
      | false =>
        rw [colonFix_ws_nocolon t hw hcol] at hfix
        have ht : colonFix t = t := by
          injection hfix
        rw [List.dropWhile_cons_of_pos hw]
        exact ih ht
    · rw [List.dropWhile_cons_of_neg hw]
      exact hfix

/-- Removing trailing whitespace from a fixed point of the colon pass gives
either a fixed point, or a string ending in a colon which the pass extends by
the single space that was stripped. -/
theorem colonFix_dropRight_bounded :
    ∀ (n : ℕ) (l : List Char), l.length ≤ n → colonFix l = l →
      colonFix (dropRightWs l) = dropRightWs l ∨
        (colonFix (dropRightWs l) = dropRightWs l ++ [' '] ∧
          (dropRightWs l).getLast? = some ':') := by
  intro n
  induction n with
  | zero =>
    intro l hl _
    rw [List.length_eq_zero.mp (Nat.le_zero.mp hl)]
    exact Or.inl rfl
  | succ n ih =>
  intro l hl hfix
  cases l with
  | nil => exact Or.inl rfl
  | cons c t =>
    by_cases hc : c = ':'
    · subst hc
      rw [colonFix_colon] at hfix
      obtain ⟨X, ht, hXeq⟩ : ∃ X, t = ' ' :: X ∧ colonFix (t.dropWhile isWsB) = X := by
        injection hfix with h1 h2
        exact ⟨_, h2.symm, rfl⟩
      subst ht
      rw [List.dropWhile_cons_of_pos (show isWsB ' ' = true by decide)] at hXeq
      have hXhead : ∀ d, X.head? = some d → isWsB d = false := by
        intro d hdh
        rw [← hXeq] at hdh
        exact colonFix_head_not_ws _ (fun e he => dropWhile_head_not isWsB X e he) d hdh
      have hXdrop : X.dropWhile isWsB = X := dropWhile_of_head_not isWsB X hXhead
      rw [hXdrop] at hXeq
      cases X with
      | nil =>
        right
        constructor
        · decide
        · decide
      | cons d X' =>
        have hd : isWsB d = false := hXhead d rfl
        obtain ⟨rs, hrs⟩ := dropRightWs_head X' hd
        have hXlen : (d :: X').length ≤ n := by
          simp only [List.length_cons] at hl ⊢
          omega
        have hdr : dropRightWs (':' :: ' ' :: d :: X') =
            ':' :: ' ' :: dropRightWs (d :: X') := by
          rw [dropRightWs_cons_cons (dropRightWs_cons_cons hrs), hrs]
        have hcf : colonFix (':' :: ' ' :: dropRightWs (d :: X')) =
            ':' :: ' ' :: colonFix (dropRightWs (d :: X')) := by
          rw [colonFix_colon, List.dropWhile_cons_of_pos (show isWsB ' ' = true by decide),
            hrs, List.dropWhile_cons_of_neg (by rw [hd]; simp), ← hrs]
        rcases ih (d :: X') hXlen hXeq with hfin | ⟨hfin, hlast⟩
        · left
          rw [hdr, hcf, hfin]
        · right
          constructor
          · rw [hdr, hcf, hfin, List.cons_append, List.cons_append]
          · rw [hdr]
            rw [hrs] at hlast ⊢
            rw [List.getLast?_cons_cons, List.getLast?_cons_cons]
            exact hlast
    · by_cases hw : isWsB c
      · have hcol : headColon (t.dropWhile isWsB) = false := by
          cases hcol : headColon (t.dropWhile isWsB) with
          | false => rfl
          | true =>
            exfalso
            have hhead := colonFix_head_colon (c :: t)
              (by rwa [List.dropWhile_cons_of_pos hw])
            rw [hfix] at hhead
            simp only [List.head?_cons, Option.some.injEq] at hhead
            rw [hhead, isWsB_colon] at hw
            exact Bool.false_ne_true hw
        rw [colonFix_ws_nocolon t hw hcol] at hfix
        have ht : colonFix t = t := by injection hfix
        cases hr : dropRightWs t with
        | nil =>
          left
          rw [dropRightWs_cons_nil hr, if_pos hw]
          rfl
        | cons y r =>
          have hrcol : headColon ((y :: r).dropWhile isWsB) = false := by
            obtain ⟨w, hwdec, hall⟩ := dropRightWs_decomp t
            rw [hr] at hwdec
            cases hdw : (y :: r).dropWhile isWsB with
            | nil => rfl
            | cons x xs =>
              have : t.dropWhile isWsB = x :: (xs ++ w) := by
                rw [hwdec]
                exact dropWhile_append_left (y :: r) w x xs hdw
              rw [this] at hcol
              simp only [headColon] at hcol ⊢
              exact hcol
          rw [dropRightWs_cons_cons hr]
          rw [colonFix_ws_nocolon (y :: r) hw hrcol]
          rw [← hr]
          have hlt : t.length ≤ n := by simp only [List.length_cons] at hl; omega
          rcases ih t hlt ht with hfin | ⟨hfin, hlast⟩
          · left; rw [hfin]
          · right
            refine ⟨by rw [hfin, List.cons_append], ?_⟩
            rw [hr] at hlast ⊢
            rw [List.getLast?_cons_cons]
            exact hlast
      · rw [colonFix_plain t (Bool.of_not_eq_true hw) hc] at hfix
        have ht : colonFix t = t := by injection hfix
        cases hr : dropRightWs t with
        | nil =>
          left
          rw [dropRightWs_cons_nil hr, if_neg hw]
          rw [colonFix_plain [] (Bool.of_not_eq_true hw) hc]
          rfl
        | cons y r =>
          rw [dropRightWs_cons_cons hr]
          rw [colonFix_plain (y :: r) (Bool.of_not_eq_true hw) hc]
          rw [← hr]
          have hlt : t.length ≤ n := by simp only [List.length_cons] at hl; omega
          rcases ih t hlt ht with hfin | ⟨hfin, hlast⟩
          · left; rw [hfin]
          · right
            refine ⟨by rw [hfin, List.cons_append], ?_⟩
            rw [hr] at hlast ⊢
            rw [List.getLast?_cons_cons]
            exact hlast

/-- Stripping, re-running the colon pass, and stripping again is the same as
stripping once, provided the string was already colon-normalized. -/
theorem stripL_colonFix_stripL (l : List Char) (hfix : colonFix l = l) :
    stripL (colonFix (stripL l)) = stripL l := by
  have hz1 : colonFix (l.dropWhile isWsB) = l.dropWhile isWsB :=
    colonFix_fixed_dropWhile l hfix
  simp only [stripL]
  rcases colonFix_dropRight_bounded (l.dropWhile isWsB).length _ le_rfl hz1 with
    hcase | ⟨hcase, hlast⟩
  · rw [hcase]
    cases hz : l.dropWhile isWsB with
    | nil => rfl
    | cons d t' =>
      have hd : isWsB d = false := dropWhile_head_not isWsB l d (by rw [hz]; rfl)
      obtain ⟨rs, hrs⟩ := dropRightWs_head t' hd
      rw [hrs, List.dropWhile_cons_of_neg (by rw [hd]; simp), ← hrs, dropRightWs_idem]
  · rw [hcase]
    cases hz : l.dropWhile isWsB with
    | nil =>
      exfalso
      have h0 : dropRightWs ([] : List Char) = [] := rfl
      rw [hz, h0] at hlast
      simp at hlast
    | cons d t' =>
      have hd : isWsB d = false := dropWhile_head_not isWsB l d (by rw [hz]; rfl)
      obtain ⟨rs, hrs⟩ := dropRightWs_head t' hd
      rw [hrs, List.cons_append, List.dropWhile_cons_of_neg (by rw [hd]; simp),
        ← List.cons_append, ← hrs,
        dropRightWs_append_ws _ [' '] (by intro a ha; simp at ha; rw [ha]; decide),
        dropRightWs_idem]

/-! ### Strings without triples of identical characters -/

/-- No three consecutive identical characters other than newlines (the shape
left behind by the first regex pass). -/
def noTriple : List Char → Prop
  | a :: b :: c :: t => ¬(a = b ∧ b = c ∧ a ≠ '\n') ∧ noTriple (b :: c :: t)
  | _ => True

theorem noTriple_tail {a : Char} {l : List Char} (h : noTriple (a :: l)) : noTriple l := by
  match l with
  | [] => trivial
  | [_] => trivial
  | b :: c :: t => exact h.2

theorem noTriple_cons {a : Char} {l : List Char}
    (hwin : ∀ b c t, l = b :: c :: t → ¬(a = b ∧ b = c ∧ a ≠ '\n'))
    (h : noTriple l) : noTriple (a :: l) := by
  match l with
  | [] => trivial
  | [_] => trivial
  | b :: c :: t => exact ⟨hwin b c t rfl, h⟩

theorem noTriple_cons_nl {l : List Char} (h : noTriple l) : noTriple ('\n' :: l) :=
  noTriple_cons (fun _ _ _ _ hcon => hcon.2.2 rfl) h

theorem noTriple_cons_ne {a : Char} {l : List Char}
    (hne : ∀ d, l.head? = some d → d ≠ a)
    (h : noTriple l) : noTriple (a :: l) :=
  noTriple_cons
    (fun b c t hl hcon => (hne b (by rw [hl]; rfl)) hcon.1.symm) h

theorem noTriple_dropWhile (p : Char → Bool) :
    ∀ l : List Char, noTriple l → noTriple (l.dropWhile p) := by
  intro l
  induction l with
  | nil => intro _; trivial
  | cons c t ih =>
    intro h
    by_cases hp : p c
    · rw [List.dropWhile_cons_of_pos hp]
      exact ih (noTriple_tail h)
    · rwa [List.dropWhile_cons_of_neg hp]

theorem noTriple_append_left : ∀ (l r : List Char), noTriple (l ++ r) → noTriple l
  | [], _, _ => trivial
  | [_], _, _ => trivial
  | [_, _], _, _ => trivial
  | _ :: b :: c :: t, r, h => ⟨h.1, noTriple_append_left (b :: c :: t) r h.2⟩

theorem noTriple_stripL {l : List Char} (h : noTriple l) : noTriple (stripL l) := by
  have h1 : noTriple (l.dropWhile isWsB) := noTriple_dropWhile isWsB l h
  obtain ⟨w, hw, _⟩ := dropRightWs_decomp (l.dropWhile isWsB)
  rw [hw] at h1
  exact noTriple_append_left _ _ h1

/-! ### The first two passes fix triple-free strings -/

theorem emitRun_spec (c : Char) (n : ℕ) :
    ∃ m, emitRun c n = List.replicate m c ∧ (c = '\n' ∨ m ≤ 2) := by
  by_cases hnl : c = '\n'
  · exact ⟨n, by rw [emitRun, if_pos hnl], Or.inl hnl⟩
  · by_cases h3 : 3 ≤ n
    · exact ⟨1, by rw [emitRun, if_neg hnl, if_pos h3]; rfl, Or.inr (by omega)⟩
    · exact ⟨n, by rw [emitRun, if_neg hnl, if_neg h3], Or.inr (by omega)⟩

theorem emitRun_low {c : Char} {n : ℕ} (h : c = '\n' ∨ n ≤ 2) :
    emitRun c n = List.replicate n c := by
  rcases h with h | h
  · rw [emitRun, if_pos h]
  · by_cases hnl : c = '\n'
    · rw [emitRun, if_pos hnl]
    · rw [emitRun, if_neg hnl, if_neg (by omega)]

theorem emitRun_cons {c : Char} {n : ℕ} (h : 1 ≤ n) :
    ∃ zs, emitRun c n = c :: zs := by
  rw [emitRun]
  by_cases hnl : c = '\n'
  · rw [if_pos hnl]
    obtain ⟨k, hk⟩ : ∃ k, n = k + 1 := ⟨n - 1, by omega⟩
    exact ⟨List.replicate k c, by rw [hk, List.replicate_succ]⟩
  · rw [if_neg hnl]
    by_cases h3 : 3 ≤ n
    · rw [if_pos h3]; exact ⟨[], rfl⟩
    · rw [if_neg h3]
      obtain ⟨k, hk⟩ : ∃ k, n = k + 1 := ⟨n - 1, by omega⟩
      exact ⟨List.replicate k c, by rw [hk, List.replicate_succ]⟩

theorem pass1Go_head : ∀ (t : List Char) (c : Char) (n : ℕ), 1 ≤ n →
    ∃ zs, pass1Go c n t = c :: zs := by
  intro t
  induction t with
  | nil =>
    intro c n hn
    exact emitRun_cons hn
  | cons d u ih =>
    intro c n hn
    by_cases hd : d = c
    · rw [pass1Go, if_pos hd]
      exact ih c (n + 1) (by omega)
    · rw [pass1Go, if_neg hd]
      obtain ⟨zs, hzs⟩ := emitRun_cons hn
      exact ⟨zs ++ pass1Go d 1 u, by rw [hzs]; rfl⟩

theorem pass1Go_run :
    ∀ (t : List Char) (c : Char) (n : ℕ),
      pass1Go c n t =
        emitRun c (n + (t.takeWhile (fun x => x == c)).length) ++
          pass1 (t.dropWhile (fun x => x == c)) := by
  intro t
  induction t with
  | nil => intro c n; simp [pass1Go, pass1]
  | cons d u ih =>
    intro c n
    by_cases hd : d = c
    · rw [pass1Go, if_pos hd, List.takeWhile_cons, List.dropWhile_cons]
      simp only [hd, beq_self_eq_true, if_true]
      rw [ih c (n + 1)]
      congr 2
      simp only [List.length_cons]
      omega
    · have hb : (d == c) = false := beq_eq_false_iff_ne.mpr hd
      rw [pass1Go, if_neg hd, List.takeWhile_cons, List.dropWhile_cons]
      simp only [hb, Bool.false_eq_true, if_false]
      simp only [List.length_nil, Nat.add_zero]
      rfl

theorem pass1_eq_run (c : Char) (rest : List Char) :
    pass1 (c :: rest) =
      emitRun c (1 + (rest.takeWhile (fun x => x == c)).length) ++
        pass1 (rest.dropWhile (fun x => x == c)) :=
  pass1Go_run rest c 1

theorem noTriple_replicate_append {c : Char} {m : ℕ} {X : List Char}
    (hm : c = '\n' ∨ m ≤ 2) (hX : noTriple X)
    (hne : ∀ d, X.head? = some d → d ≠ c) :
    noTriple (List.replicate m c ++ X) := by
  rcases hm with hnl | hm
  · subst hnl
    induction m with
    | zero => exact hX
    | succ k ihk =>
      rw [List.replicate_succ, List.cons_append]
      exact noTriple_cons_nl ihk
  · cases m with
    | zero => exact hX
    | succ m1 =>
      cases m1 with
      | zero =>
        rw [List.replicate_one, List.singleton_append]
        exact noTriple_cons_ne hne hX
      | succ m2 =>
        cases m2 with
        | succ m3 => exact absurd hm (by omega)
        | zero =>
          have h2 : List.replicate 2 c ++ X = c :: c :: X := rfl
          rw [h2]
          refine noTriple_cons ?_ (noTriple_cons_ne hne hX)
          intro b cc t hl hcon
          injection hl with h1 h2'
          exact hne cc (by rw [h2']; rfl) (h1.trans hcon.2.1).symm

theorem pass1_noTriple_bounded :
    ∀ (n : ℕ) (l : List Char), l.length ≤ n → noTriple (pass1 l) := by
  intro n
  induction n with
  | zero =>
    intro l hl
    rw [List.length_eq_zero.mp (Nat.le_zero.mp hl)]
    trivial
  | succ n ih =>
    intro l hl
    cases l with
    | nil => trivial
    | cons c rest =>
      rw [pass1_eq_run]
      obtain ⟨m, hm, hcond⟩ := emitRun_spec c (1 + (rest.takeWhile (fun x => x == c)).length)
      rw [hm]
      have hlen : (rest.dropWhile (fun x => x == c)).length ≤ n :=
        le_trans (List.dropWhile_sublist _).length_le
          (by simp only [List.length_cons] at hl; omega)
      refine noTriple_replicate_append hcond (ih _ hlen) ?_
      intro d hd
      cases hdw : rest.dropWhile (fun x => x == c) with
      | nil => rw [hdw] at hd; simp [pass1] at hd
      | cons e u =>
        rw [hdw] at hd
        obtain ⟨zs, hzs⟩ := pass1Go_head u e 1 le_rfl
        have : pass1 (e :: u) = e :: zs := hzs
        rw [this] at hd
        simp only [List.head?_cons, Option.some.injEq] at hd
        subst hd
        have he : (e == c) = false := dropWhile_head_not _ rest e (by rw [hdw]; rfl)
        exact beq_eq_false_iff_ne.mp he

theorem pass1_noTriple (l : List Char) : noTriple (pass1 l) :=
  pass1_noTriple_bounded l.length l le_rfl

theorem mem_takeWhile_pred (p : Char → Bool) :
    ∀ (l : List Char) (b : Char), b ∈ l.takeWhile p → p b = true := by
  intro l
  induction l with
  | nil => intro b hb; simp at hb
  | cons a t ih =>
    intro b hb
    rw [List.takeWhile_cons] at hb
    by_cases ha : p a = true
    · rw [if_pos ha] at hb
      rcases List.mem_cons.mp hb with h | h
      · rw [h]; exact ha
      · exact ih b h
    · rw [if_neg ha] at hb
      simp at hb

theorem pass1_fix_bounded :
    ∀ (n : ℕ) (l : List Char), l.length ≤ n → noTriple l → pass1 l = l := by
  intro n
  induction n with
  | zero =>
    intro l hl _
    rw [List.length_eq_zero.mp (Nat.le_zero.mp hl)]
    rfl
  | succ n ih =>
    intro l hl hnt
    cases l with
    | nil => rfl
    | cons c rest =>
      rw [pass1_eq_run]
      have hrun : c = '\n' ∨ 1 + (rest.takeWhile (fun x => x == c)).length ≤ 2 := by
        by_cases hnl : c = '\n'
        · exact Or.inl hnl
        · right
          by_contra hcon
          have h2 : 2 ≤ (rest.takeWhile (fun x => x == c)).length := by omega
          obtain ⟨x, y, zs, hxyz⟩ : ∃ x y zs,
              rest.takeWhile (fun x => x == c) = x :: y :: zs := by
            cases h1 : rest.takeWhile (fun x => x == c) with
            | nil => rw [h1] at h2; simp at h2
            | cons x l1 =>
              cases h2' : l1 with
              | nil => rw [h1, h2'] at h2; simp at h2
              | cons y zs => exact ⟨x, y, zs, rfl⟩
          have hx : x = c := by
            have hmem := mem_takeWhile_pred (fun x => x == c) rest x
              (by rw [hxyz]; exact List.mem_cons_self x _)
            simpa using hmem
          have hy : y = c := by
            have hmem := mem_takeWhile_pred (fun x => x == c) rest y
              (by rw [hxyz]; exact List.mem_cons_of_mem x (List.mem_cons_self y _))
            simpa using hmem
          have hsplit : rest = (x :: y :: zs) ++ rest.dropWhile (fun x => x == c) := by
            rw [← hxyz]
            exact (List.takeWhile_append_dropWhile _ _).symm
          rw [hx, hy, List.cons_append, List.cons_append] at hsplit
          rw [hsplit] at hnt
          exact hnt.1 ⟨rfl, rfl, hnl⟩
      rw [emitRun_low hrun]
      have hlen : (rest.dropWhile (fun x => x == c)).length ≤ n :=
        le_trans (List.dropWhile_sublist _).length_le
          (by simp only [List.length_cons] at hl; omega)
      have hdnt : noTriple (rest.dropWhile (fun x => x == c)) :=
        noTriple_dropWhile _ rest (noTriple_tail hnt)
      rw [ih _ hlen hdnt]
      have htw : rest.takeWhile (fun x => x == c) =
          List.replicate (rest.takeWhile (fun x => x == c)).length c := by
        refine List.eq_replicate_of_mem ?_
        intro b hb
        have hmem := mem_takeWhile_pred (fun x => x == c) rest b hb
        simpa using hmem
      rw [List.replicate_add, List.replicate_one, List.append_assoc, ← htw,
        List.takeWhile_append_dropWhile]
      rfl

theorem pass1_fix {l : List Char} (h : noTriple l) : pass1 l = l :=
  pass1_fix_bounded l.length l le_rfl h

theorem pass2_fix : ∀ l : List Char, noTriple l → pass2 l = l
  | [], _ => rfl
  | [_], _ => rfl
  | [_, _], _ => rfl
  | a :: b :: c :: t, h => by
    have hcond : ¬(a.isAlpha ∧ a = b ∧ b = c) := by
      intro ⟨ha, hab, hbc⟩
      exact h.1 ⟨hab, hbc, by
        intro hnl
        rw [hnl] at ha
        exact absurd ha (by decide)⟩
    rw [pass2, if_neg hcond]
    rw [pass2_fix (b :: c :: t) h.2]

/-! ### The colon pass preserves triple-freeness -/

theorem colonFix_window (t : List Char) (c : Char) (hc : c ≠ ':') (hnl : c ≠ '\n')
    (hcond : isWsB c = false ∨ headColon (t.dropWhile isWsB) = false)
    (hnt : noTriple (c :: t)) :
    ∀ b cc t', colonFix t = b :: cc :: t' → ¬(c = b ∧ b = cc ∧ c ≠ '\n') := by
  intro b cc t' heq hcon
  obtain ⟨h1, h2, _⟩ := hcon
  subst h1
  subst h2
  have hhd : (colonFix t).head? = some c := by rw [heq]; rfl
  rcases colonFix_head t hhd with h | h
  · exact hc h
  · cases t with
    | nil => simp at h
    | cons e t2 =>
      simp only [List.head?_cons, Option.some.injEq] at h
      subst h
      have hstep : colonFix (e :: t2) = e :: colonFix t2 := by
        by_cases hw : isWsB e
        · rcases hcond with hcf | hcol
          · rw [hw] at hcf; exact absurd hcf (by decide)
          · exact colonFix_ws_nocolon t2 hw
              (by rwa [List.dropWhile_cons_of_pos hw] at hcol)
        · exact colonFix_plain t2 (Bool.of_not_eq_true hw) hc
      rw [hstep] at heq
      injection heq with he1 he2
      have hhd2 : (colonFix t2).head? = some e := by rw [he2]; rfl
      rcases colonFix_head t2 hhd2 with h' | h'
      · exact hc h'
      · cases t2 with
        | nil => simp at h'
        | cons f t3 =>
          simp only [List.head?_cons, Option.some.injEq] at h'
          subst h'
          exact hnt.1 ⟨rfl, rfl, hnl⟩

theorem colonFix_noTriple_bounded :
    ∀ (n : ℕ) (l : List Char), l.length ≤ n → noTriple l → noTriple (colonFix l) := by
  intro n
  induction n with
  | zero =>
    intro l hl _
    rw [List.length_eq_zero.mp (Nat.le_zero.mp hl)]
    trivial
  | succ n ih =>
    intro l hl hnt
    cases l with
    | nil => trivial
    | cons c t =>
      have hlt : t.length ≤ n := by simp only [List.length_cons] at hl; omega
      have hltd : (t.dropWhile isWsB).length ≤ n :=
        le_trans (List.dropWhile_sublist isWsB).length_le hlt
      by_cases hc : c = ':'
      · subst hc
        rw [colonFix_colon]
        have hX : noTriple (colonFix (t.dropWhile isWsB)) :=
          ih _ hltd (noTriple_dropWhile isWsB t (noTriple_tail hnt))
        have hXhead : ∀ d, (colonFix (t.dropWhile isWsB)).head? = some d → isWsB d = false :=
          colonFix_head_not_ws _ (fun e he => dropWhile_head_not isWsB t e he)
        refine noTriple_cons_ne ?_ (noTriple_cons_ne ?_ hX)
        · intro d hd
          simp only [List.head?_cons, Option.some.injEq] at hd
          subst hd
          decide
        · intro d hd
          have hdw := hXhead d hd
          intro hcontra
          rw [hcontra] at hdw
          exact absurd hdw (by decide)
      · by_cases hw : isWsB c
        · cases hcol : headColon (t.dropWhile isWsB) with
          | true =>
            rw [colonFix_ws_colon t hw hcol]
            exact ih t hlt (noTriple_tail hnt)
          | false =>
            rw [colonFix_ws_nocolon t hw hcol]
            by_cases hnl : c = '\n'
            · subst hnl
              exact noTriple_cons_nl (ih t hlt (noTriple_tail hnt))
            · exact noTriple_cons
                (colonFix_window t c hc hnl (Or.inr hcol) hnt)
                (ih t hlt (noTriple_tail hnt))
        · have hnl : c ≠ '\n' := by
            intro hcontra
            rw [hcontra] at hw
            exact hw (by decide)
          rw [colonFix_plain t (Bool.of_not_eq_true hw) hc]
          exact noTriple_cons
            (colonFix_window t c hc hnl (Or.inl (Bool.of_not_eq_true hw)) hnt)
            (ih t hlt (noTriple_tail hnt))

theorem colonFix_noTriple {l : List Char} (h : noTriple l) : noTriple (colonFix l) :=
  colonFix_noTriple_bounded l.length l le_rfl h

/-! ### Idempotence of the full normalizer -/

theorem cleanL_idem (l : List Char) : cleanL (cleanL l) = cleanL l := by
  have hnt1 : noTriple (pass1 l) := pass1_noTriple l
  have hp2 : pass2 (pass1 l) = pass1 l := pass2_fix _ hnt1
  have hz_fix : colonFix (colonFix (pass2 (pass1 l))) = colonFix (pass2 (pass1 l)) :=
    colonFix_idem _
  have hznt : noTriple (colonFix (pass2 (pass1 l))) := by
    rw [hp2]
    exact colonFix_noTriple hnt1
  have hynt : noTriple (cleanL l) := noTriple_stripL hznt
  show stripL (colonFix (pass2 (pass1 (cleanL l)))) = cleanL l
  rw [pass1_fix hynt, pass2_fix _ hynt]
  exact stripL_colonFix_stripL _ hz_fix

/-! ### String helpers used by the pipeline -/

/-- ASCII `str.lower()`. -/
def lowerChar (c : Char) : Char :=
  if 'A' ≤ c ∧ c ≤ 'Z' then Char.ofNat (c.toNat + 32) else c

def lowerStr (s : String) : String :=
  String.mk (s.data.map lowerChar)

/-- `str.split('\n')` (keeps empty pieces, like Python). -/
def splitNl : List Char → List (List Char)
  | [] => [[]]
  | c :: t =>
    match splitNl t with
    | [] => [[]]
    | h :: r => if c = '\n' then [] :: h :: r else (c :: h) :: r

def splitLines (s : String) : List String :=
  (splitNl s.data).map String.mk

/-- `' '.join(...)`. -/
def joinSpaceL : List (List Char) → List Char
  | [] => []
  | [x] => x
  | x :: y :: t => x ++ ' ' :: joinSpaceL (y :: t)

def joinSpace (ss : List String) : String :=
  String.mk (joinSpaceL (ss.map String.data))

/-- Number of whitespace-separated tokens, as `len(s.split())`. -/
def tokCount : List Char → Bool → ℕ
  | [], _ => 0
  | c :: t, prevWs =>
    if isWsB c then tokCount t true
    else (if prevWs then 1 else 0) + tokCount t false

def wordCount (s : String) : ℕ := tokCount s.data true

/-- `str.isdigit()` (ASCII model). -/
def pyIsDigit (s : String) : Bool :=
  !s.data.isEmpty && s.data.all Char.isDigit

/-- `str.isupper()` (ASCII model): at least one letter, no lowercase letter. -/
def pyIsUpper (s : String) : Bool :=
  s.data.any Char.isAlpha && s.data.all (fun c => !c.isLower)

def startsWithL : List Char → List Char → Bool
  | [], _ => true
  | _ :: _, [] => false
  | p :: ps, c :: cs => p = c && startsWithL ps cs

/-- Python `pat in s` substring containment. -/
def hasSubstr (pat : List Char) : List Char → Bool
  | [] => startsWithL pat []
  | c :: t => startsWithL pat (c :: t) || hasSubstr pat t

/-- `any(ind in name for ind in inds)`. -/
def hasIndicator (inds : List String) (name : String) : Bool :=
  inds.any (fun ind => hasSubstr ind.data name.data)

def lastIs (s : String) (c : Char) : Bool :=
  decide (s.data.getLast? = some c)

/-- `bool(re.match(r"^\d+(\.\d+)*\s*|^[IVX]+\.\s*|^Appendix\s+[A-Z]", t))`:
the first alternative is equivalent to a leading digit, the second to a
maximal nonempty `IVX` run followed by a dot, the third to "Appendix", a
nonempty whitespace run, and an uppercase letter. -/
def startsNumApp (s : String) : Bool :=
  let l := s.data
  (match l.head? with | some c => c.isDigit | none => false)
  || (let run := l.takeWhile (fun c => c = 'I' || c = 'V' || c = 'X')
      !run.isEmpty && decide ((l.drop run.length).head? = some '.'))
  || (startsWithL "Appendix".data l &&
      (let rest := l.drop 8
       let wsrun := rest.takeWhile isWsB
       !wsrun.isEmpty &&
         (match (rest.drop wsrun.length).head? with
          | some c => decide ('A' ≤ c) && decide (c ≤ 'Z')
          | none => false)))

/-- `bool(re.match(r"^\d+\.\d+", t))`: a maximal nonempty digit run, a dot,
and another digit. -/
def longListNum (s : String) : Bool :=
  let l := s.data
  let d := l.takeWhile Char.isDigit
  !d.isEmpty && decide ((l.drop d.length).head? = some '.') &&
    (match (l.drop (d.length + 1)).head? with
     | some c => c.isDigit
     | none => false)

/-- Character class `[\s._]` of the table-of-contents pattern. -/
def tocClass (c : Char) : Bool :=
  isWsB c || c = '.' || c = '_'

/-- `bool(toc_pattern.match(line))` for `toc_pattern = re.compile(r'.+[\s._]+\s*\d+$')`:
since `\s ⊆ [\s._]`, a match is a nonempty newline-free prefix, a nonempty
run over `[\s._]`, and a nonempty digit suffix (`$` may also sit before one
trailing newline). -/
def tocMatch (s : String) : Bool :=
  let l := if s.data.getLast? = some '\n' then s.data.dropLast else s.data
  let r := l.reverse
  let ds := r.takeWhile Char.isDigit
  let r2 := r.dropWhile Char.isDigit
  let ms := r2.takeWhile tocClass
  let r3 := r2.dropWhile tocClass
  if ds.isEmpty then false
  else if ms.isEmpty then false
  else if r3.isEmpty then
    decide (ms.length ≥ 2) &&
      (match l.head? with | some c => !(c = '\n' : Bool) | none => false)
  else !(r3.any (fun c => c = '\n'))

/-- `round(x, 1)` modelled as half-up rounding to a tenth. -/
def floorQ (q : ℚ) : ℤ := q.num.fdiv (q.den : ℤ)

def roundTenth (q : ℚ) : ℚ := (floorQ (q * 10 + 1/2) : ℚ) / 10

/-! ### Data model: what the pdf-parsing collaborator hands the core -/

/-- A word from `extract_words(extra_attrs=["fontname", "size"])`. -/
structure PWord where
  text : String
  size : ℚ
  fontname : String
  top : ℚ
  x0 : ℚ
deriving DecidableEq

/-- A character record inside a reconstructed line (`line['chars']`). -/
structure PChar where
  size : ℚ
  fontname : String
deriving DecidableEq

/-- A line from `extract_text_lines(layout=True, strip=True)`. -/
structure PLine where
  text : String
  chars : List PChar
deriving DecidableEq

/-- A glyph bounding box (used only by the spec-modelled density). -/
structure CharBox where
  x0 : ℚ
  x1 : ℚ
  top : ℚ
  bottom : ℚ
deriving DecidableEq

/-- One page, as the set of answers the external pdf library gives the core:
dimensions, extracted words, the text of the top (12%) and bottom (10%) crop
bands (`""` for a `None` extraction), the full page text, and the
reconstructed lines. -/
structure Page where
  width : ℚ
  height : ℚ
  words : List PWord
  headerText : String
  footerText : String
  fullText : String
  lines : List PLine
  charBoxes : List CharBox
deriving DecidableEq

abbrev PDF := List Page

structure Heading where
  text : String
  size : ℚ
  page : ℕ
deriving DecidableEq

structure Entry where
  level : String
  text : String
  page : ℕ
deriving DecidableEq

structure PResult where
  title : String
  outline : List Entry
deriving DecidableEq

def emptyPage : Page := ⟨1, 1, [], "", "", "", [], []⟩

def pageAt (pdf : PDF) (i : ℕ) : Page := pdf.getD i emptyPage

/-- Modelled from the spec: the glyph-coverage density of §4.4
(DocumentClassifier), "sum of each glyph's bounding-box area divided by the
page area".  The classifier is absent from `src/solution_1a.py`; this
definition exists only to state claim C1 over it. -/
def glyphDensity (p : Page) : ℚ :=
  (p.charBoxes.map (fun b => (b.x1 - b.x0) * (b.bottom - b.top))).sum / (p.width * p.height)

/-! ### find_noise_and_content_pages -/

/-- The stripped, nonempty lines of a page's header and footer bands, as
counted by `find_noise_and_content_pages`. -/
def bandLines (p : Page) : List String :=
  (splitLines p.headerText ++ splitLines p.footerText).filterMap
    (fun ln => let s := stripStr ln; if s = "" then none else some s)

def bandCount (pdf : PDF) (t : String) : ℕ :=
  (pdf.flatMap bandLines).count t

/-- `count > len(pdf.pages) / 2`: the text is noise when it occurs on a
strict majority of pages (occurrences, not pages, are counted). -/
def isNoise (pdf : PDF) (t : String) : Prop :=
  2 * bandCount pdf t > pdf.length

instance (pdf : PDF) (t : String) : Decidable (isNoise pdf t) := by
  unfold isNoise
  exact inferInstance

/-- `toc_line_count > len(lines) * 0.2 and toc_line_count > 4`. -/
def isTocPage (p : Page) : Prop :=
  let ls := splitLines p.fullText
  let c := (ls.filter (fun ln => tocMatch ln && decide (ln.length < 100))).length
  5 * c > ls.length ∧ c > 4

instance (p : Page) : Decidable (isTocPage p) := by
  unfold isTocPage
  exact inferInstance

/-- Content pages: all pages minus table-of-contents pages, falling back to
all pages when that set would be empty. -/
def contentPages (pdf : PDF) : List ℕ :=
  let t := (List.range pdf.length).filter (fun i => !(decide (isTocPage (pageAt pdf i))))
  if t.isEmpty then List.range pdf.length else t

/-! ### get_document_style_profile -/

def firstContent (pdf : PDF) : ℕ := (contentPages pdf).headD 0

/-- Rounded word sizes of the first three content pages, in iteration
order (the `Counter` update sequence). -/
def sampledSizes (pdf : PDF) : List ℚ :=
  ((contentPages pdf).take 3).flatMap
    (fun i => (pageAt pdf i).words.map (fun w => roundTenth w.size))

/-- `Counter.most_common(1)`: the first-encountered value of maximal
multiplicity. -/
def firstMode (l : List ℚ) : Option ℚ :=
  l.foldl
    (fun best x =>
      match best with
      | none => some x
      | some b => if l.count x > l.count b then some x else some b)
    none

/-- The body text size: most frequent rounded size, defaulting to `10.0`. -/
def bodySize (pdf : PDF) : ℚ :=
  match firstMode (sampledSizes pdf) with
  | some s => s
  | none => 10

def listMax : List ℚ → ℚ
  | [] => 0
  | a :: t => t.foldl max a

/-- Stable insertion step for the `(top, x0)` reading-order sort. -/
def insWord (w : PWord) : List PWord → List PWord
  | [] => [w]
  | v :: t =>
    if w.top < v.top ∨ (w.top = v.top ∧ w.x0 ≤ v.x0) then w :: v :: t
    else v :: insWord w t

def sortWords : List PWord → List PWord
  | [] => []
  | w :: t => insWord w (sortWords t)

/-- The document title: words of the first content page that are both larger
than `1.5 ×` body size and at least `90%` of the maximum size, joined in
reading order and garble-cleaned; `""` when no such words exist. -/
def titleOf (pdf : PDF) : String :=
  match (pageAt pdf (firstContent pdf)).words with
  | [] => ""
  | w :: ws =>
    let b := bodySize pdf
    let maxSize := listMax ((w :: ws).map (fun v => v.size))
    let tws := (w :: ws).filter
      (fun v => decide (v.size > b * 3 / 2 ∧ v.size ≥ maxSize * 9 / 10))
    match tws with
    | [] => ""
    | _ :: _ => clean_garbled_text (joinSpace ((sortWords tws).map (fun v => v.text)))

/-! ### Heading scoring (the per-line feature block of parse_as_report) -/

def lineSize (body : ℚ) (l : PLine) : ℚ :=
  match l.chars.head? with
  | some c => c.size
  | none => body

def lineFontName (l : PLine) : String :=
  match l.chars.head? with
  | some c => lowerStr c.fontname
  | none => ""

def isAllCaps (t : String) : Bool :=
  pyIsUpper t && decide (t.length > 1) && t.data.contains ' '

/-- The weighted feature score of a reconstructed line (WEIGHTS and the
score accumulation of `parse_as_report`). -/
def lineScore (body : ℚ) (l : PLine) : ℚ :=
  let t := stripStr l.text
  let ratio := lineSize body l / body
  (if ratio > 11/10 then ratio * 3 else 0)
    + (if hasIndicator ["bold", "black", "cn", "oblique"] (lineFontName l) then 5/2 else 0)
    + (if isAllCaps t then 3/2 else 0)
    + (if startsNumApp t then 2 else 0)
    + (if wordCount t < 10 then 3/2 else 0)
    + (if lastIs t ':' then 1 else 0)
    + (if lastIs t '.' then (-5 : ℚ) else 0)
    + (if longListNum t && decide (wordCount t > 8) then (-5 : ℚ) else 0)

/-- `HEADING_THRESHOLD = 4.5`. -/
def HEADING_THRESHOLD : ℚ := 9/2

/-- The hard filters and threshold test turning a line into a heading
record, or nothing. -/
def toHeading (pdf : PDF) (body : ℚ) (pageIdx : ℕ) (l : PLine) : Option Heading :=
  let t := stripStr l.text
  if t = "" ∨ isNoise pdf t ∨ pyIsDigit t then none
  else if lineScore body l ≥ HEADING_THRESHOLD then
    some ⟨t, roundTenth (lineSize body l), pageIdx + 1⟩
  else none

/-- All accepted heading candidates, content pages in ascending order,
extraction order within each page. -/
def headingsOf (pdf : PDF) : List Heading :=
  (contentPages pdf).flatMap
    (fun p => (pageAt pdf p).lines.filterMap (toHeading pdf (bodySize pdf) p))

/-! ### Post-processing: dedup, level assignment, outline -/

/-- `{t.lower() for t in title.split('\n')}`. -/
def seen0 (pdf : PDF) : List String :=
  (splitLines (titleOf pdf)).map lowerStr

/-- The duplicate/title filter: first occurrence (by lowercased text) wins. -/
def dedupFold : List Heading → List String → List Heading
  | [], _ => []
  | h :: t, seen =>
    if lowerStr h.text ∈ seen then dedupFold t seen
    else h :: dedupFold t (lowerStr h.text :: seen)

def finalHeadings (pdf : PDF) : List Heading :=
  dedupFold (headingsOf pdf) (seen0 pdf)

/-- `sorted(list(set(sizes)), reverse=True)`. -/
def uniqueSizes (pdf : PDF) : List ℚ :=
  (List.insertionSort (fun a b => a ≤ b)
    (((finalHeadings pdf).map (fun h => h.size)).dedup)).reverse

/-- `f"H{i+1}"` for the at most four assigned indices. -/
def levelName : ℕ → String
  | 0 => "H1"
  | 1 => "H2"
  | 2 => "H3"
  | _ => "H4"

def idxIn (s : ℚ) : List ℚ → Option ℕ
  | [] => none
  | a :: t => if a = s then some 0 else (idxIn s t).map (· + 1)

/-- `size_map.get(h["size"], "H4")` over `size_map` built from the top four
distinct sizes. -/
def levelOf (us : List ℚ) (sz : ℚ) : String :=
  match idxIn sz (us.take 4) with
  | some i => levelName i
  | none => "H4"

def outlineOf (pdf : PDF) : List Entry :=
  (finalHeadings pdf).map
    (fun h => ⟨levelOf (uniqueSizes pdf) h.size, h.text, h.page⟩)

/-- `parse_as_report(pdf)`. -/
def parse_as_report : PDF → PResult
  | [] => ⟨"", []⟩
  | p :: ps => ⟨titleOf (p :: ps), outlineOf (p :: ps)⟩

/-- `process_pdf`: a document that cannot be opened (an exception from the
pdf library) is modelled as `none`; the function then returns `None` and the
caller writes no output for it. -/
def process_pdf : Option PDF → Option PResult
  | none => none
  | some pdf => some (parse_as_report pdf)

/-- The batch loop of `main`: each document is processed independently. -/
def processBatch (docs : List (Option PDF)) : List (Option PResult) :=
  docs.map process_pdf

/-! ### Structural lemmas about the pipeline -/

theorem toHeading_some {pdf : PDF} {body : ℚ} {p : ℕ} {l : PLine} {h : Heading}
    (heq : toHeading pdf body p l = some h) :
    h.text = stripStr l.text ∧ ¬ isNoise pdf h.text ∧ h.page = p + 1 ∧
      lineScore body l ≥ HEADING_THRESHOLD ∧ h.size = roundTenth (lineSize body l) := by
  unfold toHeading at heq
  by_cases hfil : stripStr l.text = "" ∨ isNoise pdf (stripStr l.text) ∨ pyIsDigit (stripStr l.text)
  · rw [if_pos hfil] at heq
    exact absurd heq (by simp)
  · rw [if_neg hfil] at heq
    by_cases hsc : lineScore body l ≥ HEADING_THRESHOLD
    · rw [if_pos hsc] at heq
      have hh : h = ⟨stripStr l.text, roundTenth (lineSize body l), p + 1⟩ := by
        injection heq with h1
        exact h1.symm
      subst hh
      refine ⟨rfl, ?_, rfl, hsc, rfl⟩
      intro hn
      exact hfil (Or.inr (Or.inl hn))
    · rw [if_neg hsc] at heq
      exact absurd heq (by simp)

theorem mem_headingsOf {pdf : PDF} {h : Heading} :
    h ∈ headingsOf pdf ↔
      ∃ p ∈ contentPages pdf, ∃ l ∈ (pageAt pdf p).lines,
        toHeading pdf (bodySize pdf) p l = some h := by
  unfold headingsOf
  rw [List.mem_flatMap]
  constructor
  · rintro ⟨p, hp, hmem⟩
    obtain ⟨l, hl, hsome⟩ := List.mem_filterMap.mp hmem
    exact ⟨p, hp, l, hl, hsome⟩
  · rintro ⟨p, hp, l, hl, hsome⟩
    exact ⟨p, hp, List.mem_filterMap.mpr ⟨l, hl, hsome⟩⟩

theorem dedupFold_sublist :
    ∀ (l : List Heading) (seen : List String), List.Sublist (dedupFold l seen) l := by
  intro l
  induction l with
  | nil => intro seen; exact List.Sublist.refl []
  | cons h t ih =>
    intro seen
    rw [dedupFold]
    by_cases hmem : lowerStr h.text ∈ seen
    · rw [if_pos hmem]
      exact List.Sublist.cons h (ih seen)
    · rw [if_neg hmem]
      exact List.Sublist.cons₂ h (ih (lowerStr h.text :: seen))

theorem dedupFold_spec :
    ∀ (l : List Heading) (seen : List String) (h : Heading), h ∈ dedupFold l seen →
      lowerStr h.text ∉ seen ∧
        List.find? (fun g => lowerStr g.text == lowerStr h.text) l = some h := by
  intro l
  induction l with
  | nil => intro seen h hmem; simp [dedupFold] at hmem
  | cons a t ih =>
    intro seen h hmem
    rw [dedupFold] at hmem
    by_cases hseen : lowerStr a.text ∈ seen
    · rw [if_pos hseen] at hmem
      obtain ⟨hnot, hfind⟩ := ih seen h hmem
      have hne : (lowerStr a.text == lowerStr h.text) = false := by
        rw [beq_eq_false_iff_ne]
        intro hcontra
        rw [hcontra] at hseen
        exact hnot hseen
      refine ⟨hnot, ?_⟩
      rw [List.find?_cons_of_neg _ (by rw [hne]; simp), hfind]
    · rw [if_neg hseen] at hmem
      rcases List.mem_cons.mp hmem with hha | hht
      · subst hha
        refine ⟨hseen, ?_⟩
        rw [List.find?_cons_of_pos _ (by simp)]
      · obtain ⟨hnot, hfind⟩ := ih _ h hht
        have hne : lowerStr h.text ≠ lowerStr a.text := by
          intro hcontra
          exact hnot (by rw [hcontra]; exact List.mem_cons_self _ _)
        refine ⟨fun hcontra => hnot (List.mem_cons_of_mem _ hcontra), ?_⟩
        rw [List.find?_cons_of_neg _ (by simp; exact fun hcontra => hne hcontra.symm), hfind]

theorem dedupFold_pairwise :
    ∀ (l : List Heading) (seen : List String),
      List.Pairwise (fun a b => lowerStr a.text ≠ lowerStr b.text) (dedupFold l seen) := by
  intro l
  induction l with
  | nil => intro seen; simp [dedupFold]
  | cons a t ih =>
    intro seen
    rw [dedupFold]
    by_cases hseen : lowerStr a.text ∈ seen
    · rw [if_pos hseen]; exact ih seen
    · rw [if_neg hseen]
      refine List.Pairwise.cons ?_ (ih (lowerStr a.text :: seen))
      intro b hb
      have := (dedupFold_spec t (lowerStr a.text :: seen) b hb).1
      intro hcontra
      exact this (by rw [← hcontra]; exact List.mem_cons_self _ _)

theorem mem_finalHeadings_mem {pdf : PDF} {h : Heading} (hmem : h ∈ finalHeadings pdf) :
    h ∈ headingsOf pdf :=
  (dedupFold_sublist (headingsOf pdf) (seen0 pdf)).subset hmem

theorem mem_outlineOf {pdf : PDF} {e : Entry} :
    e ∈ outlineOf pdf ↔
      ∃ h ∈ finalHeadings pdf,
        e = ⟨levelOf (uniqueSizes pdf) h.size, h.text, h.page⟩ := by
  unfold outlineOf
  rw [List.mem_map]
  constructor
  · rintro ⟨h, hh, he⟩; exact ⟨h, hh, he.symm⟩
  · rintro ⟨h, hh, he⟩; exact ⟨h, hh, he.symm⟩

theorem parse_title (pdf : PDF) : (parse_as_report pdf).title = titleOf pdf := by
  cases pdf with
  | nil => rfl
  | cons p ps => rfl

theorem parse_outline (pdf : PDF) : (parse_as_report pdf).outline = outlineOf pdf := by
  cases pdf with
  | nil => rfl
  | cons p ps => rfl

theorem pairwise_of_forall_mem {α : Type} {R : α → α → Prop} :
    ∀ l : List α, (∀ a ∈ l, ∀ b ∈ l, R a b) → List.Pairwise R l := by
  intro l
  induction l with
  | nil => intro _; exact List.Pairwise.nil
  | cons a t ih =>
    intro h
    refine List.Pairwise.cons ?_ (ih ?_)
    · intro b hb
      exact h a (List.mem_cons_self a t) b (List.mem_cons_of_mem a hb)
    · intro x hx y hy
      exact h x (List.mem_cons_of_mem a hx) y (List.mem_cons_of_mem a hy)

theorem contentPages_sorted (pdf : PDF) :
    List.Pairwise (· < ·) (contentPages pdf) := by
  unfold contentPages
  by_cases hemp :
      ((List.range pdf.length).filter (fun i => !(decide (isTocPage (pageAt pdf i))))).isEmpty
  · rw [if_pos hemp]
    exact List.pairwise_lt_range pdf.length
  · rw [if_neg hemp]
    exact (List.pairwise_lt_range pdf.length).sublist (List.filter_sublist _)

theorem mem_contentPages_lt {pdf : PDF} {p : ℕ} (hp : p ∈ contentPages pdf) :
    p < pdf.length := by
  unfold contentPages at hp
  by_cases hemp :
      ((List.range pdf.length).filter (fun i => !(decide (isTocPage (pageAt pdf i))))).isEmpty
  · rw [if_pos hemp] at hp
    exact List.mem_range.mp hp
  · rw [if_neg hemp] at hp
    exact List.mem_range.mp ((List.filter_sublist _).subset hp)

theorem flatMap_page_pairwise (f : ℕ → List Heading) :
    ∀ ps : List ℕ, List.Pairwise (· < ·) ps → (∀ p ∈ ps, ∀ h ∈ f p, h.page = p + 1) →
      List.Pairwise (fun a b : Heading => a.page ≤ b.page) (ps.flatMap f) := by
  intro ps
  induction ps with
  | nil => intro _ _; simp
  | cons p t ih =>
    intro hsort hpage
    rw [List.flatMap_cons]
    rw [List.pairwise_append]
    refine ⟨?_, ?_, ?_⟩
    · refine pairwise_of_forall_mem _ ?_
      intro a ha b hb
      rw [hpage p (List.mem_cons_self p t) a ha, hpage p (List.mem_cons_self p t) b hb]
    · exact ih (List.Pairwise.sublist (List.sublist_cons_self p t) hsort)
        (fun q hq h hh => hpage q (List.mem_cons_of_mem p hq) h hh)
    · intro a ha b hb
      obtain ⟨q, hq, hbq⟩ := List.mem_flatMap.mp hb
      rw [hpage p (List.mem_cons_self p t) a ha,
        hpage q (List.mem_cons_of_mem p hq) b hbq]
      have : p < q := (List.pairwise_cons.mp hsort).1 q hq
      omega

theorem headingsOf_pages_mono (pdf : PDF) :
    List.Pairwise (fun a b : Heading => a.page ≤ b.page) (headingsOf pdf) := by
  unfold headingsOf
  refine flatMap_page_pairwise _ _ (contentPages_sorted pdf) ?_
  intro p _ h hh
  obtain ⟨l, _, hsome⟩ := List.mem_filterMap.mp hh
  exact (toHeading_some hsome).2.2.1

/-! ### Two concrete documents used by the witnesses -/

/-- A one-page document with a repeated band line, a title in large type, a
case-variant of the title among the lines, a duplicated heading, and a bare
page number. -/
def pageA : Page :=
  ⟨100, 100,
   [⟨"MAIN", 20, "f", 5, 0⟩, ⟨"TITLE", 20, "f", 5, 30⟩,
    ⟨"alpha", 10, "f", 50, 0⟩, ⟨"beta", 10, "f", 50, 10⟩, ⟨"gamma", 10, "f", 50, 20⟩],
   "Confidential", "", "",
   [⟨"Confidential", [⟨12, "bold-f"⟩]⟩,
    ⟨"Main Title", [⟨12, "bold-f"⟩]⟩,
    ⟨"MAIN TIIITLE", [⟨14, "bold-f"⟩]⟩,
    ⟨" Heading   One ", [⟨12, "bold-f"⟩]⟩,
    ⟨"HEADING   ONE", [⟨11, "bold-f"⟩]⟩,
    ⟨"42", [⟨12, "bold-f"⟩]⟩],
   [⟨0, 1, 0, 1⟩, ⟨1, 2, 0, 1⟩, ⟨2, 3, 0, 1⟩, ⟨3, 4, 0, 1⟩, ⟨4, 5, 0, 1⟩]⟩

/-- A one-page document whose title words are garbled and whose lines test
the case-only comparison and the absence of garble-cleaning on entries. -/
def pageB : Page :=
  ⟨100, 100,
   [⟨"Reeeeport", 20, "f", 5, 0⟩, ⟨":Draft", 20, "f", 5, 40⟩,
    ⟨"a", 10, "f", 50, 0⟩, ⟨"b", 10, "f", 50, 5⟩, ⟨"c", 10, "f", 50, 10⟩],
   "", "", "",
   [⟨"REPORT: DRAFT", [⟨12, "bold-f"⟩]⟩,
    ⟨"Reeeeport: Draft", [⟨12, "bold-f"⟩]⟩,
    ⟨"Chapter Oooone", [⟨12, "bold-f"⟩]⟩],
   []⟩

/-! ### Claim C3 -/

/-- C3: every band line occurring more than `pages/2` times is noise, and no
outline entry of the returned result has text equal to such a noise line — a
line repeated on a strict majority of pages never appears in the outline. -/
theorem C3_noise_never_in_outline (pdf : PDF) (t : String) (e : Entry)
    (hnoise : isNoise pdf t) (he : e ∈ (parse_as_report pdf).outline) :
    e.text ≠ t := by
  rw [parse_outline] at he
  obtain ⟨h, hh, hemk⟩ := mem_outlineOf.mp he
  obtain ⟨p, _, l, _, hsome⟩ := mem_headingsOf.mp (mem_finalHeadings_mem hh)
  obtain ⟨_, hnn, _, _, _⟩ := toHeading_some hsome
  subst hemk
  intro hcontra
  rw [show (⟨levelOf (uniqueSizes pdf) h.size, h.text, h.page⟩ : Entry).text = h.text from rfl]
    at hcontra
  rw [hcontra] at hnn
  exact hnn hnoise

/-- Witness for C3 at a concrete document: `"Confidential"` occurs on the
only page's header band (so it is noise), the outline is nonempty, and its
entry text differs from the noise line. -/
theorem C3_noise_never_in_outline_witness :
    isNoise [pageA] "Confidential" ∧
      (⟨"H1", "MAIN TIIITLE", 1⟩ : Entry) ∈ (parse_as_report [pageA]).outline ∧
      (⟨"H1", "MAIN TIIITLE", 1⟩ : Entry).text ≠ "Confidential" :=
  ⟨by with_unfolding_all decide, by with_unfolding_all decide,
    C3_noise_never_in_outline [pageA] "Confidential" ⟨"H1", "MAIN TIIITLE", 1⟩
      (by with_unfolding_all decide) (by with_unfolding_all decide)⟩

/-! ### Claim C6 -/

/-- C6: outline entries appear with non-decreasing 1-based page numbers
(content pages ascending, extraction order within each page), and level
assignment does not reorder: the outline's `(text, page)` sequence is exactly
that of the accepted-and-deduplicated candidates. -/
theorem C6_outline_order (pdf : PDF) :
    List.Pairwise (fun a b : Entry => a.page ≤ b.page) (parse_as_report pdf).outline ∧
      (parse_as_report pdf).outline.map (fun e => (e.text, e.page)) =
        (finalHeadings pdf).map (fun h => (h.text, h.page)) := by
  rw [parse_outline]
  constructor
  · unfold outlineOf
    rw [List.pairwise_map]
    exact (headingsOf_pages_mono pdf).sublist (dedupFold_sublist _ _)
  · unfold outlineOf
    rw [List.map_map]
    rfl

/-! ### Claim C5 -/

theorem idxIn_some_lt {s : ℚ} :
    ∀ {l : List ℚ} {i : ℕ}, idxIn s l = some i → i < l.length := by
  intro l
  induction l with
  | nil => intro i h; simp [idxIn] at h
  | cons a t ih =>
    intro i h
    rw [idxIn] at h
    by_cases ha : a = s
    · rw [if_pos ha] at h
      injection h with h1
      rw [← h1]
      simp
    · rw [if_neg ha] at h
      cases hidx : idxIn s t with
      | none => rw [hidx] at h; simp at h
      | some j =>
        rw [hidx] at h
        have h' : j + 1 = i := by simpa using h
        have := ih hidx
        simp only [List.length_cons]
        omega

theorem idxIn_none_iff {s : ℚ} :
    ∀ {l : List ℚ}, idxIn s l = none ↔ s ∉ l := by
  intro l
  induction l with
  | nil => simp [idxIn]
  | cons a t ih =>
    rw [idxIn]
    by_cases ha : a = s
    · rw [if_pos ha]
      simp [ha]
    · rw [if_neg ha]
      constructor
      · intro h hmem
        rcases List.mem_cons.mp hmem with h1 | h1
        · exact ha h1.symm
        · exact (ih.mp (by cases hidx : idxIn s t with
            | none => rfl
            | some j => rw [hidx] at h; simp at h)) h1
      · intro hmem
        have : s ∉ t := fun hc => hmem (List.mem_cons_of_mem a hc)
        rw [ih.mpr this]
        rfl

theorem idxIn_get_nodup :
    ∀ (l : List ℚ), l.Nodup → ∀ (i : ℕ) (hi : i < l.length),
      idxIn (l.get ⟨i, hi⟩) l = some i := by
  intro l
  induction l with
  | nil => intro _ i hi; simp at hi
  | cons a t ih =>
    intro hnd i hi
    cases i with
    | zero =>
      have hget : (a :: t).get ⟨0, hi⟩ = a := rfl
      rw [hget, idxIn, if_pos rfl]
    | succ j =>
      have hj : j < t.length := by simp only [List.length_cons] at hi; omega
      have hget : (a :: t).get ⟨j + 1, hi⟩ = t.get ⟨j, hj⟩ := rfl
      rw [hget, idxIn]
      have hne : a ≠ t.get ⟨j, hj⟩ := by
        intro hcontra
        have : a ∈ t := by rw [hcontra]; exact t.get_mem j hj
        exact (List.nodup_cons.mp hnd).1 this
      rw [if_neg hne, ih (List.nodup_cons.mp hnd).2 j hj]
      rfl

theorem uniqueSizes_nodup (pdf : PDF) : (uniqueSizes pdf).Nodup := by
  unfold uniqueSizes
  rw [List.nodup_reverse]
  exact ((List.perm_insertionSort _ _).nodup_iff).mpr (List.nodup_dedup _)

theorem mem_uniqueSizes {pdf : PDF} {s : ℚ} :
    s ∈ uniqueSizes pdf ↔ ∃ h ∈ finalHeadings pdf, h.size = s := by
  unfold uniqueSizes
  rw [List.mem_reverse, (List.perm_insertionSort _ _).mem_iff, List.mem_dedup, List.mem_map]

theorem uniqueSizes_strict_desc (pdf : PDF) :
    List.Pairwise (· > ·) (uniqueSizes pdf) := by
  unfold uniqueSizes
  rw [List.pairwise_reverse]
  have hsorted : List.Pairwise (fun a b : ℚ => a ≤ b)
      (List.insertionSort (fun a b => a ≤ b) (((finalHeadings pdf).map (fun h => h.size)).dedup)) :=
    List.sorted_insertionSort _ _
  have hnodup : (List.insertionSort (fun a b => a ≤ b)
      (((finalHeadings pdf).map (fun h => h.size)).dedup)).Nodup :=
    ((List.perm_insertionSort _ _).nodup_iff).mpr (List.nodup_dedup _)
  exact (hsorted.and hnodup).imp (fun hab => lt_of_le_of_ne hab.1 hab.2)

/-- C5: for a nonempty outline the set of level tags used is exactly
`{H1, …, Hk}` for `k = min 4 (number of distinct accepted sizes)`: every
entry's level is some `H(i+1)` with `i < k`, every such level occurs, the
distinct sizes are enumerated in strictly descending order, and no candidate
is rejected by level assignment (the outline has one entry per deduplicated
candidate, sizes outside the top four defaulting to the lowest level H4). -/
theorem C5_levels_contiguous (pdf : PDF)
    (hne : (parse_as_report pdf).outline ≠ []) :
    1 ≤ min 4 (uniqueSizes pdf).length ∧
      min 4 (uniqueSizes pdf).length ≤ 4 ∧
      (∀ e ∈ (parse_as_report pdf).outline,
        ∃ i, i < min 4 (uniqueSizes pdf).length ∧ e.level = levelName i) ∧
      (∀ i, i < min 4 (uniqueSizes pdf).length →
        ∃ e ∈ (parse_as_report pdf).outline, e.level = levelName i) ∧
      List.Pairwise (· > ·) (uniqueSizes pdf) ∧
      (parse_as_report pdf).outline.length = (finalHeadings pdf).length := by
  rw [parse_outline] at hne ⊢
  have htake : ((uniqueSizes pdf).take 4).length = min 4 (uniqueSizes pdf).length :=
    List.length_take 4 (uniqueSizes pdf)
  have htake_nodup : ((uniqueSizes pdf).take 4).Nodup :=
    (uniqueSizes_nodup pdf).sublist (List.take_sublist 4 _)
  refine ⟨?_, min_le_left _ _, ?_, ?_, uniqueSizes_strict_desc pdf, List.length_map ..⟩
  · -- 1 ≤ k
    obtain ⟨e, he⟩ := List.exists_mem_of_ne_nil _ hne
    obtain ⟨h, hh, _⟩ := mem_outlineOf.mp he
    have hs : h.size ∈ uniqueSizes pdf := mem_uniqueSizes.mpr ⟨h, hh, rfl⟩
    have : uniqueSizes pdf ≠ [] := fun hc => by rw [hc] at hs; simp at hs
    have : 1 ≤ (uniqueSizes pdf).length := by
      cases hu : uniqueSizes pdf with
      | nil => exact absurd hu this
      | cons a t => simp
    omega
  · -- every entry's level is H(i+1) with i < k
    intro e he
    obtain ⟨h, hh, hemk⟩ := mem_outlineOf.mp he
    subst hemk
    show ∃ i, i < min 4 (uniqueSizes pdf).length ∧
      levelOf (uniqueSizes pdf) h.size = levelName i
    unfold levelOf
    cases hidx : idxIn h.size ((uniqueSizes pdf).take 4) with
    | some i =>
      refine ⟨i, ?_, rfl⟩
      have := idxIn_some_lt hidx
      rw [htake] at this
      exact this
    | none =>
      refine ⟨3, ?_, rfl⟩
      have hnotin : h.size ∉ (uniqueSizes pdf).take 4 := idxIn_none_iff.mp hidx
      have hs : h.size ∈ uniqueSizes pdf := mem_uniqueSizes.mpr ⟨h, hh, rfl⟩
      have hlen : 4 < (uniqueSizes pdf).length := by
        by_contra hcon
        rw [List.take_of_length_le (by omega)] at hnotin
        exact hnotin hs
      omega
  · -- every level H(i+1) with i < k occurs
    intro i hi
    have hi' : i < ((uniqueSizes pdf).take 4).length := by rw [htake]; exact hi
    set si := ((uniqueSizes pdf).take 4).get ⟨i, hi'⟩ with hsi
    have hsi_mem : si ∈ uniqueSizes pdf :=
      (List.take_sublist 4 _).subset (((uniqueSizes pdf).take 4).get_mem i hi')
    obtain ⟨h, hh, hhs⟩ := mem_uniqueSizes.mp hsi_mem
    refine ⟨⟨levelOf (uniqueSizes pdf) h.size, h.text, h.page⟩,
      mem_outlineOf.mpr ⟨h, hh, rfl⟩, ?_⟩
    show levelOf (uniqueSizes pdf) h.size = levelName i
    have hidx : idxIn si ((uniqueSizes pdf).take 4) = some i := by
      rw [hsi]
      exact idxIn_get_nodup _ htake_nodup i hi'
    unfold levelOf
    rw [hhs, hidx]

/-- Witness for C5 at a concrete document whose outline has two entries with
two distinct sizes: the level set is exactly `{H1, H2}`. -/
theorem C5_levels_contiguous_witness :
    (parse_as_report [pageA]).outline ≠ [] ∧
      (1 ≤ min 4 (uniqueSizes [pageA]).length ∧
        min 4 (uniqueSizes [pageA]).length ≤ 4 ∧
        (∀ e ∈ (parse_as_report [pageA]).outline,
          ∃ i, i < min 4 (uniqueSizes [pageA]).length ∧ e.level = levelName i) ∧
        (∀ i, i < min 4 (uniqueSizes [pageA]).length →
          ∃ e ∈ (parse_as_report [pageA]).outline, e.level = levelName i) ∧
        List.Pairwise (· > ·) (uniqueSizes [pageA]) ∧
        (parse_as_report [pageA]).outline.length = (finalHeadings [pageA]).length) :=
  ⟨by with_unfolding_all decide,
    C5_levels_contiguous [pageA] (by with_unfolding_all decide)⟩

/-! ### Claim C1 -/

/-- Counterexample to C1 as stated: a single-page document with glyph
coverage density far below the poster threshold `0.2` whose returned outline
has two entries — the pipeline has no POSTER path, so the "outline contains
at most one entry" part of the claim fails. -/
theorem C1_poster_counterexample :
    glyphDensity pageA < 1/5 ∧ ([pageA] : PDF).length = 1 ∧
      (parse_as_report [pageA]).outline.length = 2 := by
  with_unfolding_all decide

/-- C1 amended: a single-page document below the density threshold is
processed by the same REPORT parser as every other document — scoring is
applied, and every outline entry originates from a reconstructed line of the
page whose weighted score reached the heading threshold (the outline is not
capped at one entry). -/
theorem C1_sparse_page_report_path (page : Page)
    (_hd : glyphDensity page < 1/5)
    (e : Entry) (he : e ∈ (parse_as_report [page]).outline) :
    ∃ l ∈ page.lines, e.text = stripStr l.text ∧
      lineScore (bodySize [page]) l ≥ HEADING_THRESHOLD := by
  rw [parse_outline] at he
  obtain ⟨h, hh, hemk⟩ := mem_outlineOf.mp he
  obtain ⟨p, hp, l, hl, hsome⟩ := mem_headingsOf.mp (mem_finalHeadings_mem hh)
  obtain ⟨htext, _, _, hsc, _⟩ := toHeading_some hsome
  have hp0 : p = 0 := by
    have := mem_contentPages_lt hp
    simp only [List.length_cons, List.length_nil] at this
    omega
  subst hp0
  have hpage : pageAt [page] 0 = page := rfl
  rw [hpage] at hl
  refine ⟨l, hl, ?_, hsc⟩
  subst hemk
  exact htext

/-- Witness for the amended C1 at a sparse concrete page. -/
theorem C1_sparse_page_report_path_witness :
    glyphDensity pageA < 1/5 ∧
      (⟨"H2", "Heading   One", 1⟩ : Entry) ∈ (parse_as_report [pageA]).outline ∧
      (∃ l ∈ pageA.lines, (⟨"H2", "Heading   One", 1⟩ : Entry).text = stripStr l.text ∧
        lineScore (bodySize [pageA]) l ≥ HEADING_THRESHOLD) :=
  ⟨by with_unfolding_all decide, by with_unfolding_all decide,
    C1_sparse_page_report_path pageA (by with_unfolding_all decide)
      ⟨"H2", "Heading   One", 1⟩ (by with_unfolding_all decide)⟩

/-! ### Claim C10 -/

/-- C10: garble normalization is applied only to the title.  Universally,
every outline entry's text is a raw extracted line text with only
surrounding whitespace stripped; concretely (document `pageB`), the title is
garble-cleaned (`"Reeeeport :Draft"` becomes `"Report: Draft"`) while the
outline keeps `"Reeeeport: Draft"` and `"Chapter Oooone"` verbatim — the
line `"REPORT: DRAFT"` is excluded, showing the title comparison lowercases
but applies no other normalization. -/
theorem C10_entries_raw_title_cleaned :
    (∀ (pdf : PDF) (e : Entry), e ∈ (parse_as_report pdf).outline →
      ∃ p ∈ contentPages pdf, ∃ l ∈ (pageAt pdf p).lines, e.text = stripStr l.text) ∧
      (parse_as_report [pageB]).title = "Report: Draft" ∧
      (parse_as_report [pageB]).outline.map (fun e => e.text) =
        ["Reeeeport: Draft", "Chapter Oooone"] := by
  refine ⟨?_, by with_unfolding_all decide, by with_unfolding_all decide⟩
  intro pdf e he
  rw [parse_outline] at he
  obtain ⟨h, hh, hemk⟩ := mem_outlineOf.mp he
  obtain ⟨p, hp, l, hl, hsome⟩ := mem_headingsOf.mp (mem_finalHeadings_mem hh)
  obtain ⟨htext, _, _, _, _⟩ := toHeading_some hsome
  refine ⟨p, hp, l, hl, ?_⟩
  subst hemk
  exact htext

/-- Witness for the universal part of C10 at a concrete entry. -/
theorem C10_entries_raw_title_cleaned_witness :
    (⟨"H2", "Heading   One", 1⟩ : Entry) ∈ (parse_as_report [pageA]).outline ∧
      (∃ p ∈ contentPages [pageA], ∃ l ∈ (pageAt [pageA] p).lines,
        (⟨"H2", "Heading   One", 1⟩ : Entry).text = stripStr l.text) :=
  ⟨by with_unfolding_all decide,
    C10_entries_raw_title_cleaned.1 [pageA] ⟨"H2", "Heading   One", 1⟩
      (by with_unfolding_all decide)⟩

/-! ### Claim C2 -/

theorem lineScore_single (body sz : ℚ) (fname t0 : String) :
    lineScore body ⟨t0, [⟨sz, fname⟩]⟩ =
      (if sz / body > 11/10 then sz / body * 3 else 0)
        + (if hasIndicator ["bold", "black", "cn", "oblique"] (lowerStr fname) then 5/2 else 0)
        + (if isAllCaps (stripStr t0) then 3/2 else 0)
        + (if startsNumApp (stripStr t0) then 2 else 0)
        + (if wordCount (stripStr t0) < 10 then 3/2 else 0)
        + (if lastIs (stripStr t0) ':' then 1 else 0)
        + (if lastIs (stripStr t0) '.' then (-5 : ℚ) else 0)
        + (if longListNum (stripStr t0) && decide (wordCount (stripStr t0) > 8)
            then (-5 : ℚ) else 0) := rfl

/-- Counterexample to C2 as stated: a line whose text is
`"4.2.1 Some Subsection Heading"` but whose font is the body font (ratio 1,
not bold) scores `3.5`, strictly below the threshold `4.5`, so the text alone
does not make the line a heading candidate. -/
theorem C2_score_counterexample :
    lineScore 10 ⟨"4.2.1 Some Subsection Heading", [⟨10, "f1"⟩]⟩ = 7/2 ∧
      (7/2 : ℚ) < HEADING_THRESHOLD := by
  with_unfolding_all decide

/-- C2 amended: `"4.2.1 Some Subsection Heading"` scores at or above the
threshold whenever the line is bold or its size ratio exceeds `1.1` (at body
size and non-bold it scores only `3.5`); the sentence
`"4.2 This paragraph …factors."` scores strictly below the threshold for
every font whose size ratio is at most `3`, bold or not, and so is excluded
from the candidate set. -/
theorem C2_scores (body sz : ℚ) (fname : String) :
    ((hasIndicator ["bold", "black", "cn", "oblique"] (lowerStr fname) = true ∨
        sz / body > 11/10) →
      lineScore body ⟨"4.2.1 Some Subsection Heading", [⟨sz, fname⟩]⟩ ≥ HEADING_THRESHOLD) ∧
    (sz / body ≤ 3 →
      lineScore body
          ⟨"4.2 This paragraph explains the methodology used throughout the extensive study of various factors.",
            [⟨sz, fname⟩]⟩ < HEADING_THRESHOLD) := by
  have hA1 : stripStr "4.2.1 Some Subsection Heading" = "4.2.1 Some Subsection Heading" := by
    with_unfolding_all decide
  have hA2 : isAllCaps "4.2.1 Some Subsection Heading" = false := by decide
  have hA3 : startsNumApp "4.2.1 Some Subsection Heading" = true := by decide
  have hA4 : wordCount "4.2.1 Some Subsection Heading" = 4 := by decide
  have hA5 : lastIs "4.2.1 Some Subsection Heading" ':' = false := by decide
  have hA6 : lastIs "4.2.1 Some Subsection Heading" '.' = false := by decide
  have hA7 : longListNum "4.2.1 Some Subsection Heading" = true := by decide
  have hB1 : stripStr "4.2 This paragraph explains the methodology used throughout the extensive study of various factors." =
      "4.2 This paragraph explains the methodology used throughout the extensive study of various factors." := by
    with_unfolding_all decide
  have hB2 : isAllCaps "4.2 This paragraph explains the methodology used throughout the extensive study of various factors." = false := by decide
  have hB3 : startsNumApp "4.2 This paragraph explains the methodology used throughout the extensive study of various factors." = true := by decide
  have hB4 : wordCount "4.2 This paragraph explains the methodology used throughout the extensive study of various factors." = 14 := by decide
  have hB5 : lastIs "4.2 This paragraph explains the methodology used throughout the extensive study of various factors." ':' = false := by decide
  have hB6 : lastIs "4.2 This paragraph explains the methodology used throughout the extensive study of various factors." '.' = true := by decide
  have hB7 : longListNum "4.2 This paragraph explains the methodology used throughout the extensive study of various factors." = true := by decide
  constructor
  · intro hcase
    rw [lineScore_single, hA1, hA2, hA3, hA4, hA5, hA6, hA7, HEADING_THRESHOLD]
    norm_num
    rcases hcase with hbold | hratio
    · rw [if_pos hbold]
      by_cases hr : sz / body > 11/10
      · rw [if_pos hr]
        nlinarith [hr]
      · rw [if_neg hr]
        norm_num
    · rw [if_pos hratio]
      by_cases hbold : hasIndicator ["bold", "black", "cn", "oblique"] (lowerStr fname) = true
      · rw [if_pos hbold]
        nlinarith [hratio]
      · rw [if_neg hbold]
        nlinarith [hratio]
  · intro hle
    rw [lineScore_single, hB1, hB2, hB3, hB4, hB5, hB6, hB7, HEADING_THRESHOLD]
    norm_num
    by_cases hr : sz / body > 11/10
    · rw [if_pos hr]
      by_cases hbold : hasIndicator ["bold", "black", "cn", "oblique"] (lowerStr fname) = true
      · rw [if_pos hbold]
        nlinarith [hle, hr]
      · rw [if_neg hbold]
        nlinarith [hle, hr]
    · rw [if_neg hr]
      by_cases hbold : hasIndicator ["bold", "black", "cn", "oblique"] (lowerStr fname) = true
      · rw [if_pos hbold]
        norm_num
      · rw [if_neg hbold]
        norm_num

/-- Witness for C2 at a bold font of ratio `1.2`. -/
theorem C2_scores_witness :
    (hasIndicator ["bold", "black", "cn", "oblique"] (lowerStr "BoldFont") = true ∨
        (12 : ℚ) / 10 > 11/10) ∧
      lineScore 10 ⟨"4.2.1 Some Subsection Heading", [⟨12, "BoldFont"⟩]⟩ ≥ HEADING_THRESHOLD ∧
      ((12 : ℚ) / 10 ≤ 3) ∧
      lineScore 10
          ⟨"4.2 This paragraph explains the methodology used throughout the extensive study of various factors.",
            [⟨12, "BoldFont"⟩]⟩ < HEADING_THRESHOLD :=
  ⟨Or.inl (by decide),
    (C2_scores 10 12 "BoldFont").1 (Or.inl (by decide)),
    by with_unfolding_all decide,
    (C2_scores 10 12 "BoldFont").2 (by with_unfolding_all decide)⟩

/-! ### Claim C4 -/

/-- C4: the text normalizer is idempotent — applying `clean_garbled_text` to
its own output returns that output unchanged.  (Purity is intrinsic to the
embedding: the function is a map on strings.) -/
theorem C4_normalizer_idempotent (s : String) :
    clean_garbled_text (clean_garbled_text s) = clean_garbled_text s := by
  show String.mk (cleanL (String.mk (cleanL s.data)).data) = String.mk (cleanL s.data)
  have hdata : (String.mk (cleanL s.data)).data = cleanL s.data := rfl
  rw [hdata, cleanL_idem]

/-! ### Claim C9 -/

/-- Counterexample to C9 as stated: `clean_garbled_text` does not collapse
every whitespace run to a single space — a run of exactly two spaces is
preserved (`"a  b"` maps to itself, not to `"a b"`). -/
theorem C9_whitespace_counterexample :
    clean_garbled_text "a  b" = "a  b" ∧ ("a  b" : String) ≠ "a b" := by
  with_unfolding_all decide

theorem stripL_idem (l : List Char) : stripL (stripL l) = stripL l := by
  show dropRightWs ((dropRightWs (l.dropWhile isWsB)).dropWhile isWsB) =
    dropRightWs (l.dropWhile isWsB)
  cases hz : l.dropWhile isWsB with
  | nil => rfl
  | cons d t' =>
    have hd : isWsB d = false := dropWhile_head_not isWsB l d (by rw [hz]; rfl)
    obtain ⟨rs, hrs⟩ := dropRightWs_head t' hd
    rw [hrs, List.dropWhile_cons_of_neg (by rw [hd]; simp), ← hrs, dropRightWs_idem]

/-- C9 amended: for every input the normalizer's output is trimmed — applying
`str.strip()` to the result leaves it unchanged.  The collapse part of the
claim fails beyond the two-space counterexample: an interior run of exactly
two spaces is preserved (`"a  b"` is a fixed point), and a newline run of
length three is also preserved (`"a\n\n\nb"` is a fixed point, because the
repeated-character regex's `.` does not match a newline); whitespace runs
shrink only in instances such as a run of three spaces (`"a   b"` becomes
`"a b"`) or whitespace around a colon (`" x :  y "` becomes `"x: y"`). -/
theorem C9_whitespace_amended :
    (∀ s : String, stripStr (clean_garbled_text s) = clean_garbled_text s) ∧
      clean_garbled_text "a   b" = "a b" ∧
      clean_garbled_text "a  b" = "a  b" ∧
      clean_garbled_text "a\n\n\nb" = "a\n\n\nb" ∧
      clean_garbled_text " x :  y " = "x: y" := by
  refine ⟨?_, ?_, ?_, ?_, ?_⟩
  · intro s
    show String.mk (stripL (String.mk (cleanL s.data)).data) = String.mk (cleanL s.data)
    have hdata : (String.mk (cleanL s.data)).data = cleanL s.data := rfl
    rw [hdata]
    show String.mk (stripL (stripL (colonFix (pass2 (pass1 s.data))))) = _
    rw [stripL_idem]
    rfl
  · with_unfolding_all decide
  · with_unfolding_all decide
  · with_unfolding_all decide
  · with_unfolding_all decide

/-! ### Claim C8 -/

/-- Counterexample to C8 as stated: an unreadable document (the pdf library
throws, modelled as `none`) makes `process_pdf` return `None` — the caller
then writes no output for it — rather than returning the empty result
`{"title": "", "outline": []}`. -/
theorem C8_unreadable_counterexample :
    process_pdf none = none ∧ process_pdf none ≠ some ⟨"", []⟩ := by
  constructor
  · rfl
  · intro h
    simp [process_pdf] at h

/-- C8 amended: a zero-page document yields `{"title": "", "outline": []}`;
an unreadable document yields `None` (it is skipped, no output written); and
the batch is a pointwise map, so one document's failure never affects the
processing of its siblings. -/
theorem C8_empty_and_batch :
    parse_as_report [] = ⟨"", []⟩ ∧
      process_pdf (some []) = some ⟨"", []⟩ ∧
      process_pdf none = none ∧
      (∀ (pre post : List (Option PDF)) (d : Option PDF),
        processBatch (pre ++ d :: post) =
          processBatch pre ++ process_pdf d :: processBatch post) := by
  refine ⟨rfl, rfl, rfl, ?_⟩
  intro pre post d
  unfold processBatch
  rw [List.map_append, List.map_cons]

/-! ### Claim C7: preparation — the cleaned title contains no newline -/

theorem mem_emitRun {a c : Char} {n : ℕ} (h : a ∈ emitRun c n) : a = c := by
  unfold emitRun at h
  by_cases hnl : c = '\n'
  · rw [if_pos hnl] at h
    exact List.eq_of_mem_replicate h
  · rw [if_neg hnl] at h
    by_cases h3 : 3 ≤ n
    · rw [if_pos h3] at h
      simpa using h
    · rw [if_neg h3] at h
      exact List.eq_of_mem_replicate h

theorem mem_pass1Go :
    ∀ (t : List Char) (c : Char) (n : ℕ) (a : Char), a ∈ pass1Go c n t → a = c ∨ a ∈ t := by
  intro t
  induction t with
  | nil =>
    intro c n a h
    exact Or.inl (mem_emitRun h)
  | cons d u ih =>
    intro c n a h
    rw [pass1Go] at h
    by_cases hd : d = c
    · rw [if_pos hd] at h
      rcases ih c (n + 1) a h with h1 | h1
      · exact Or.inl h1
      · exact Or.inr (List.mem_cons_of_mem d h1)
    · rw [if_neg hd] at h
      rcases List.mem_append.mp h with h1 | h1
      · exact Or.inl (mem_emitRun h1)
      · rcases ih d 1 a h1 with h2 | h2
        · exact Or.inr (by rw [h2]; exact List.mem_cons_self d u)
        · exact Or.inr (List.mem_cons_of_mem d h2)

theorem pass1_no_newline {l : List Char} (h : '\n' ∉ l) : '\n' ∉ pass1 l := by
  cases l with
  | nil => simp [pass1]
  | cons c t =>
    intro hmem
    rcases mem_pass1Go t c 1 '\n' hmem with h1 | h1
    · exact h (by rw [h1]; exact List.mem_cons_self c t)
    · exact h (List.mem_cons_of_mem c h1)

theorem mem_pass2 : ∀ (l : List Char) (a : Char), a ∈ pass2 l → a ∈ l
  | [], _, h => h
  | [_], _, h => h
  | [_, _], _, h => h
  | x :: b :: c :: t, a, h => by
    rw [pass2] at h
    by_cases hcond : x.isAlpha ∧ x = b ∧ b = c
    · rw [if_pos hcond] at h
      rcases List.mem_cons.mp h with h1 | h1
      · rw [h1]; exact List.mem_cons_self x _
      · have := mem_pass2 t a h1
        exact List.mem_cons_of_mem x
          (List.mem_cons_of_mem b (List.mem_cons_of_mem c this))
    · rw [if_neg hcond] at h
      rcases List.mem_cons.mp h with h1 | h1
      · rw [h1]; exact List.mem_cons_self x _
      · exact List.mem_cons_of_mem x (mem_pass2 (b :: c :: t) a h1)

theorem colonGo_no_newline :
    ∀ (l pend : List Char) (dr : Bool), '\n' ∉ pend → '\n' ∉ l →
      '\n' ∉ colonGo dr pend l := by
  intro l
  induction l with
  | nil =>
    intro pend dr hp _
    exact hp
  | cons c t ih =>
    intro pend dr hp hl
    have hc : c ≠ '\n' := fun hcontra => hl (List.mem_cons.mpr (Or.inl hcontra.symm))
    have ht : '\n' ∉ t := fun hcontra => hl (List.mem_cons_of_mem c hcontra)
    rw [colonGo]
    by_cases hw : isWsB c
    · rw [if_pos hw]
      cases dr with
      | true =>
        simpa using ih [] true (by simp) ht
      | false =>
        simp only [Bool.false_eq_true, if_false]
        refine ih (pend ++ [c]) false ?_ ht
        intro hcontra
        rcases List.mem_append.mp hcontra with h1 | h1
        · exact hp h1
        · exact hc (List.eq_of_mem_singleton h1).symm
    · rw [if_neg hw]
      by_cases hcol : c = ':'
      · rw [if_pos hcol]
        intro hcontra
        rcases List.mem_cons.mp hcontra with h1 | h1
        · exact absurd h1 (by decide)
        · rcases List.mem_cons.mp h1 with h2 | h2
          · exact absurd h2 (by decide)
          · exact ih [] true (by simp) ht h2
      · rw [if_neg hcol]
        intro hcontra
        rcases List.mem_append.mp hcontra with h1 | h1
        · exact hp h1
        · rcases List.mem_cons.mp h1 with h2 | h2
          · exact hc h2.symm
          · exact ih [] false (by simp) ht h2

theorem mem_stripL {a : Char} {l : List Char} (h : a ∈ stripL l) : a ∈ l := by
  unfold stripL at h
  obtain ⟨w, hw, _⟩ := dropRightWs_decomp (l.dropWhile isWsB)
  have h1 : a ∈ l.dropWhile isWsB := by
    rw [hw]
    exact List.mem_append_left _ h
  exact (List.dropWhile_sublist isWsB).subset h1

theorem cleanL_no_newline {l : List Char} (h : '\n' ∉ l) : '\n' ∉ cleanL l := by
  intro hmem
  have h1 : '\n' ∈ colonFix (pass2 (pass1 l)) := mem_stripL hmem
  have h2 : '\n' ∉ pass2 (pass1 l) :=
    fun hc => pass1_no_newline h (mem_pass2 (pass1 l) '\n' hc)
  exact colonGo_no_newline (pass2 (pass1 l)) [] false (by simp) h2 h1

theorem joinSpaceL_no_newline :
    ∀ xs : List (List Char), (∀ x ∈ xs, '\n' ∉ x) → '\n' ∉ joinSpaceL xs
  | [], _ => by simp [joinSpaceL]
  | [x], h => by
    rw [joinSpaceL]
    exact h x (List.mem_cons_self x [])
  | x :: y :: t, h => by
    rw [joinSpaceL]
    intro hmem
    rcases List.mem_append.mp hmem with h1 | h1
    · exact h x (List.mem_cons_self x _) h1
    · rcases List.mem_cons.mp h1 with h2 | h2
      · exact absurd h2 (by decide)
      · exact joinSpaceL_no_newline (y :: t)
          (fun z hz => h z (List.mem_cons_of_mem x hz)) h2

theorem mem_insWord {a w : PWord} :
    ∀ l : List PWord, a ∈ insWord w l → a = w ∨ a ∈ l := by
  intro l
  induction l with
  | nil =>
    intro h
    exact Or.inl (by simpa [insWord] using h)
  | cons v t ih =>
    intro h
    rw [insWord] at h
    by_cases hc : w.top < v.top ∨ (w.top = v.top ∧ w.x0 ≤ v.x0)
    · rw [if_pos hc] at h
      rcases List.mem_cons.mp h with h1 | h1
      · exact Or.inl h1
      · exact Or.inr h1
    · rw [if_neg hc] at h
      rcases List.mem_cons.mp h with h1 | h1
      · exact Or.inr (by rw [h1]; exact List.mem_cons_self v t)
      · rcases ih h1 with h2 | h2
        · exact Or.inl h2
        · exact Or.inr (List.mem_cons_of_mem v h2)

theorem mem_sortWords {a : PWord} : ∀ l : List PWord, a ∈ sortWords l → a ∈ l := by
  intro l
  induction l with
  | nil => intro h; exact h
  | cons w t ih =>
    intro h
    rw [sortWords] at h
    rcases mem_insWord (sortWords t) h with h1 | h1
    · rw [h1]; exact List.mem_cons_self w t
    · exact List.mem_cons_of_mem w (ih h1)

/-- The three possible shapes of the computed title. -/
theorem titleOf_shape (pdf : PDF) :
    titleOf pdf = "" ∨
      ∃ tws : List PWord, (∀ v ∈ tws, v ∈ (pageAt pdf (firstContent pdf)).words) ∧
        titleOf pdf = clean_garbled_text (joinSpace ((sortWords tws).map (fun v => v.text))) := by
  unfold titleOf
  split
  · exact Or.inl rfl
  · rename_i w ws heqw
    dsimp only
    split
    · exact Or.inl rfl
    · rename_i v vs heqf
      refine Or.inr ⟨v :: vs, ?_, by rw [heqf]⟩
      intro u hu
      rw [heqw]
      rw [← heqf] at hu
      exact List.mem_of_mem_filter hu

theorem titleOf_no_newline (pdf : PDF)
    (hwf : ∀ p ∈ pdf, ∀ w ∈ p.words, '\n' ∉ w.text.data) :
    '\n' ∉ (titleOf pdf).data := by
  rcases titleOf_shape pdf with h | ⟨tws, hsub, h⟩
  · rw [h]; simp
  · rw [h]
    show '\n' ∉ cleanL (joinSpace ((sortWords tws).map (fun v => v.text))).data
    apply cleanL_no_newline
    show '\n' ∉ joinSpaceL ((((sortWords tws).map (fun v => v.text)).map String.data))
    rw [List.map_map]
    apply joinSpaceL_no_newline
    intro x hx
    obtain ⟨u, hu, hxu⟩ := List.mem_map.mp hx
    have humem : u ∈ (pageAt pdf (firstContent pdf)).words := hsub u (mem_sortWords tws hu)
    by_cases hi : firstContent pdf < pdf.length
    · have hpage : pageAt pdf (firstContent pdf) = pdf.get ⟨firstContent pdf, hi⟩ := by
        unfold pageAt
        exact List.getD_eq_get _ emptyPage hi
      rw [hpage] at humem
      have hpmem : pdf.get ⟨firstContent pdf, hi⟩ ∈ pdf := pdf.get_mem _ _
      rw [← hxu]
      exact hwf _ hpmem u humem
    · have hpage : pageAt pdf (firstContent pdf) = emptyPage := by
        unfold pageAt
        exact List.getD_eq_default _ emptyPage (by omega)
      rw [hpage] at humem
      exact absurd humem (by simp [emptyPage])

theorem splitNl_no_newline : ∀ l : List Char, '\n' ∉ l → splitNl l = [l] := by
  intro l
  induction l with
  | nil => intro _; rfl
  | cons c t ih =>
    intro h
    have hc : c ≠ '\n' := fun hcontra => h (List.mem_cons.mpr (Or.inl hcontra.symm))
    have ht := ih (fun hcontra => h (List.mem_cons_of_mem c hcontra))
    rw [splitNl, ht]
    simp [hc]

theorem seen0_single (pdf : PDF) (h : '\n' ∉ (titleOf pdf).data) :
    seen0 pdf = [lowerStr (titleOf pdf)] := by
  unfold seen0 splitLines
  rw [splitNl_no_newline _ h]
  rfl

/-! ### Claim C7 -/

/-- C7: provided the collaborator's words carry no embedded newlines, no
outline entry's lowercased text equals the lowercased title, no two outline
entries share the same lowercased text, and every surviving candidate is the
first (in document order) among the accepted candidates with its lowercased
text. -/
theorem C7_dedup_title (pdf : PDF)
    (hwf : ∀ p ∈ pdf, ∀ w ∈ p.words, '\n' ∉ w.text.data) :
    (∀ e ∈ (parse_as_report pdf).outline, lowerStr e.text ≠ lowerStr (titleOf pdf)) ∧
      List.Pairwise (fun a b : Entry => lowerStr a.text ≠ lowerStr b.text)
        (parse_as_report pdf).outline ∧
      (∀ h ∈ finalHeadings pdf,
        List.find? (fun g => lowerStr g.text == lowerStr h.text) (headingsOf pdf) = some h) := by
  have hseen : seen0 pdf = [lowerStr (titleOf pdf)] :=
    seen0_single pdf (titleOf_no_newline pdf hwf)
  refine ⟨?_, ?_, ?_⟩
  · intro e he
    rw [parse_outline] at he
    obtain ⟨h, hh, hemk⟩ := mem_outlineOf.mp he
    have hnot := (dedupFold_spec (headingsOf pdf) (seen0 pdf) h hh).1
    rw [hseen] at hnot
    subst hemk
    intro hcontra
    exact hnot (by rw [hcontra]; exact List.mem_cons_self _ _)
  · rw [parse_outline]
    unfold outlineOf
    rw [List.pairwise_map]
    exact dedupFold_pairwise (headingsOf pdf) (seen0 pdf)
  · intro h hh
    exact (dedupFold_spec (headingsOf pdf) (seen0 pdf) h hh).2

/-- Witness for C7 at `pageA`: the title case-variant line is excluded, the
duplicate `"HEADING   ONE"` is dropped in favour of the earlier
`"Heading   One"`, and the retained entries have distinct lowercased texts. -/
theorem C7_dedup_title_witness :
    (∀ p ∈ ([pageA] : PDF), ∀ w ∈ p.words, '\n' ∉ w.text.data) ∧
      ((∀ e ∈ (parse_as_report [pageA]).outline,
          lowerStr e.text ≠ lowerStr (titleOf [pageA])) ∧
        List.Pairwise (fun a b : Entry => lowerStr a.text ≠ lowerStr b.text)
          (parse_as_report [pageA]).outline ∧
        (∀ h ∈ finalHeadings [pageA],
          List.find? (fun g => lowerStr g.text == lowerStr h.text)
            (headingsOf [pageA]) = some h)) :=
  ⟨by with_unfolding_all decide,
    C7_dedup_title [pageA] (by with_unfolding_all decide)⟩

end Solution1a
